import Mathlib

/-!
Verification of the `ObjectGraph` canvas component of git-visualiser-web.

The development shallowly embeds the production graph component
(`src/assets/ObjectGraph.tsx`): the git object model, the insertion-ordered
JavaScript `Map`, the BFS depth assignment and coordinate layout
(`defaultPositions`), the drag-override merge (`nodePositions`), the
reachability set (`relatedHashes`), the edge-drawing pass of the render
effect, and the pointer handlers (`handleMouseDown` / `handleMouseMove` /
`handleMouseUp` / `handleClick`).  Numeric coordinates are modelled as exact
integers; the while-loops of the two breadth-first traversals are modelled
with an explicit iteration budget together with a proved bound within which
each loop reaches its final state.
-/

namespace GitVis

/-- A JavaScript `Map`: an insertion-ordered association list.  `set` on an
existing key keeps the key's original position; a fresh key is appended. -/
structure JSMap (α β : Type) where
  entries : List (α × β)
deriving DecidableEq, Repr

namespace JSMap

variable {α β : Type} [DecidableEq α]

def empty : JSMap α β := ⟨[]⟩

def get (m : JSMap α β) (k : α) : Option β :=
  (m.entries.find? (fun e => e.1 == k)).map (·.2)

def has (m : JSMap α β) (k : α) : Bool :=
  m.entries.any (fun e => e.1 == k)

def set (m : JSMap α β) (k : α) (v : β) : JSMap α β :=
  if m.has k then ⟨m.entries.map (fun e => if e.1 == k then (k, v) else e)⟩
  else ⟨m.entries ++ [(k, v)]⟩

/-- Well-formed map: one entry per key (every map built through `set` is). -/
def WF (m : JSMap α β) : Prop := (m.entries.map Prod.fst).Nodup

theorem find?_overwrite_self (l : List (α × β)) (k : α) (v : β)
    (h : ∃ e ∈ l, e.1 = k) :
    (l.map (fun e => if e.1 == k then (k, v) else e)).find? (fun e => e.1 == k)
      = some (k, v) := by
  induction l with
  | nil => rcases h with ⟨e, he, _⟩; cases he
  | cons e rest ih =>
    by_cases hk : e.1 = k
    · have hfe : (if e.1 == k then ((k, v) : α × β) else e) = (k, v) := by
        simp [hk]
      rw [List.map_cons, hfe, List.find?_cons_of_pos _ (by simp)]
    · have hb : (e.1 == k) = false := by simpa using hk
      have hrest : (∃ e ∈ rest, e.1 = k) := by
        rcases h with ⟨e', he', hk'⟩
        rcases List.mem_cons.mp he' with rfl | hr
        · exact absurd hk' hk
        · exact ⟨e', hr, hk'⟩
      have hfe : (if e.1 == k then ((k, v) : α × β) else e) = e := by
        simp [hb]
      rw [List.map_cons, hfe, List.find?_cons_of_neg _ (by simp [hk])]
      exact ih hrest

theorem find?_overwrite_ne (l : List (α × β)) (k k' : α) (v : β) (h : k' ≠ k) :
    (l.map (fun e => if e.1 == k then (k, v) else e)).find? (fun e => e.1 == k')
      = l.find? (fun e => e.1 == k') := by
  induction l with
  | nil => rfl
  | cons e rest ih =>
    by_cases hk : e.1 = k
    · have hfe : (if e.1 == k then ((k, v) : α × β) else e) = (k, v) := by
        simp [hk]
      rw [List.map_cons, hfe,
        List.find?_cons_of_neg _ (by simpa using Ne.symm h),
        List.find?_cons_of_neg _ (by rw [hk]; simpa using Ne.symm h)]
      exact ih
    · have hb : (e.1 == k) = false := by simpa using hk
      have hfe : (if e.1 == k then ((k, v) : α × β) else e) = e := by
        simp [hb]
      by_cases he' : e.1 = k'
      · rw [List.map_cons, hfe, List.find?_cons_of_pos _ (by simpa using he'),
          List.find?_cons_of_pos _ (by simpa using he')]
      · rw [List.map_cons, hfe, List.find?_cons_of_neg _ (by simpa using he'),
          List.find?_cons_of_neg _ (by simpa using he')]
        exact ih

theorem get_eq_none_iff (m : JSMap α β) (k : α) :
    m.get k = none ↔ ∀ e ∈ m.entries, e.1 ≠ k := by
  unfold get
  rw [Option.map_eq_none', List.find?_eq_none]
  constructor
  · intro h e he
    have := h e he
    simpa using this
  · intro h e he
    simpa using h e he

theorem has_iff_mem_keys (m : JSMap α β) (k : α) :
    m.has k = true ↔ k ∈ m.entries.map Prod.fst := by
  unfold has
  rw [List.any_eq_true]
  constructor
  · rintro ⟨e, he, hk⟩
    exact List.mem_map.mpr ⟨e, he, by simpa using hk⟩
  · intro h
    rcases List.mem_map.mp h with ⟨e, he, hk⟩
    exact ⟨e, he, by simpa using hk⟩

theorem get_isSome_of_has (m : JSMap α β) (k : α) (h : m.has k = true) :
    ∃ v, m.get k = some v := by
  unfold has at h
  rw [List.any_eq_true] at h
  rcases Option.isSome_iff_exists.mp (List.find?_isSome.mpr h) with ⟨e', he'⟩
  exact ⟨e'.2, by unfold get; rw [he']; rfl⟩

theorem has_of_get_eq_some (m : JSMap α β) (k : α) (v : β) (h : m.get k = some v) :
    m.has k = true := by
  unfold get at h
  rcases Option.map_eq_some'.mp h with ⟨e, he, _⟩
  have hpe := List.find?_some he
  unfold has
  rw [List.any_eq_true]
  exact ⟨e, List.mem_of_find?_eq_some he, hpe⟩

theorem get_eq_none_of_has_eq_false (m : JSMap α β) (k : α) (h : m.has k = false) :
    m.get k = none := by
  cases hg : m.get k with
  | none => rfl
  | some v => rw [has_of_get_eq_some m k v hg] at h; cases h

theorem mem_entries_of_get_eq_some (m : JSMap α β) (k : α) (v : β)
    (h : m.get k = some v) : (k, v) ∈ m.entries := by
  unfold get at h
  rcases Option.map_eq_some'.mp h with ⟨e, he, hv⟩
  have hk : e.1 = k := by simpa using List.find?_some he
  have := List.mem_of_find?_eq_some he
  rwa [show e = (k, v) from Prod.ext hk hv] at this

theorem get_set_self (m : JSMap α β) (k : α) (v : β) :
    (m.set k v).get k = some v := by
  unfold set
  by_cases h : m.has k = true
  · rw [if_pos h]
    unfold has at h
    rw [List.any_eq_true] at h
    have h' : ∃ e ∈ m.entries, e.1 = k := by
      rcases h with ⟨e, he, hk⟩; exact ⟨e, he, by simpa using hk⟩
    show ((m.entries.map _).find? _).map _ = some v
    rw [find?_overwrite_self m.entries k v h']
    rfl
  · rw [if_neg h]
    have hnone : m.entries.find? (fun e => e.1 == k) = none := by
      rw [List.find?_eq_none]
      intro e he
      by_contra hc
      exact h (by unfold has; rw [List.any_eq_true]; exact ⟨e, he, by simpa using hc⟩)
    show ((m.entries ++ [(k, v)]).find? _).map _ = some v
    rw [List.find?_append, hnone]
    simp

theorem get_set_ne (m : JSMap α β) (k k' : α) (v : β) (h : k' ≠ k) :
    (m.set k v).get k' = m.get k' := by
  unfold set
  by_cases hh : m.has k = true
  · rw [if_pos hh]
    show ((m.entries.map _).find? _).map _ = _
    rw [find?_overwrite_ne m.entries k k' v h]
    rfl
  · rw [if_neg hh]
    show ((m.entries ++ [(k, v)]).find? _).map _ = _
    rw [List.find?_append]
    have : [(k, v)].find? (fun e => e.1 == k') = none := by
      have : (k == k') = false := by simpa using (Ne.symm h)
      simp [List.find?, this]
    rw [this]
    cases hf : m.entries.find? (fun e => e.1 == k') <;> simp [get, hf]

theorem has_set (m : JSMap α β) (k k' : α) (v : β) :
    (m.set k v).has k' = (k' == k || m.has k') := by
  by_cases h : k' = k
  · subst h
    simp only [beq_self_eq_true, Bool.true_or]
    exact has_of_get_eq_some _ _ _ (get_set_self m k' v)
  · have hb : (k' == k) = false := by simpa using h
    rw [hb, Bool.false_or]
    cases hm : m.has k' with
    | true =>
      rcases get_isSome_of_has m k' hm with ⟨v', hv'⟩
      exact has_of_get_eq_some _ _ v' (by rw [get_set_ne m k k' v h]; exact hv')
    | false =>
      cases hs : (m.set k v).has k' with
      | false => rfl
      | true =>
        rcases get_isSome_of_has _ k' hs with ⟨v', hv'⟩
        rw [get_set_ne m k k' v h] at hv'
        rw [has_of_get_eq_some m k' v' hv'] at hm
        cases hm

end JSMap

/-- The four git object kinds (the `type` discriminator of `GitObject`). -/
inductive ObjType
  | commit
  | tree
  | blob
  | tag
deriving DecidableEq, Repr

/-- One tree entry (`TreeObject.entries` element). -/
structure TreeEntry where
  mode : String
  etype : ObjType
  hash : String
  name : String
deriving DecidableEq, Repr

/-- A git object as the component consumes it.  The TypeScript source uses a
union of interfaces discriminated by `type`; here the kind-specific fields
live side by side and are read only behind the same `type` tests the code
performs. -/
structure GitObject where
  hash : String
  type : ObjType
  /-- commit: the `tree` reference. -/
  tree : String := ""
  /-- commit: parent commit hashes. -/
  parent : List String := []
  /-- commit: display message. -/
  message : String := ""
  /-- tree / blob: display names. -/
  names : List String := []
  /-- tree: entries. -/
  entries : List TreeEntry := []
  /-- tag: the tagged object's hash. -/
  objectHash : String := ""
deriving DecidableEq, Repr

/-- `new Map(objects.map((o) => [o.hash, o]))`. -/
def objectMap (objects : List GitObject) : JSMap String GitObject :=
  (objects.map (fun o => (o.hash, o))).foldl (fun m p => m.set p.1 p.2) JSMap.empty

/-- Hashes of a tree object's entries (`entries.map(e => e.hash)`). -/
def entryHashes (o : GitObject) : List String := o.entries.map (·.hash)

/-- The while-loop of Step A of `defaultPositions`, with an explicit iteration
budget.  Each iteration pops the queue head; a visited hash is skipped,
otherwise it is recorded at its queue depth and, when it resolves to a tree,
its entry hashes are pushed at depth+1. -/
def depthBFSF (omap : JSMap String GitObject) (fuel : Nat)
    (queue : List (String × Nat)) (visited : List String)
    (dmap : JSMap String Nat) : JSMap String Nat :=
  match fuel with
  | 0 => dmap
  | fuel + 1 =>
    match queue with
    | [] => dmap
    | (h, d) :: rest =>
      if h ∈ visited then
        depthBFSF omap fuel rest visited dmap
      else
        let dmap' := if dmap.has h then dmap else dmap.set h d
        let visited' := visited ++ [h]
        match omap.get h with
        | some o =>
          if o.type = ObjType.tree then
            depthBFSF omap fuel (rest ++ o.entries.map (fun e => (e.hash, d + 1)))
              visited' dmap'
          else
            depthBFSF omap fuel rest visited' dmap'
        | none => depthBFSF omap fuel rest visited' dmap'

theorem depthBFSF_nil (omap : JSMap String GitObject) (fuel : Nat)
    (visited : List String) (dmap : JSMap String Nat) :
    depthBFSF omap fuel [] visited dmap = dmap := by
  cases fuel <;> rfl

theorem depthBFSF_cons (omap : JSMap String GitObject) (fuel : Nat)
    (h : String) (d : Nat) (rest : List (String × Nat)) (visited : List String)
    (dmap : JSMap String Nat) :
    depthBFSF omap (fuel + 1) ((h, d) :: rest) visited dmap =
      if h ∈ visited then
        depthBFSF omap fuel rest visited dmap
      else
        let dmap' := if dmap.has h then dmap else dmap.set h d
        let visited' := visited ++ [h]
        match omap.get h with
        | some o =>
          if o.type = ObjType.tree then
            depthBFSF omap fuel (rest ++ o.entries.map (fun e => (e.hash, d + 1)))
              visited' dmap'
          else
            depthBFSF omap fuel rest visited' dmap'
        | none => depthBFSF omap fuel rest visited' dmap' := rfl

/-- Number of hashes one expansion of `h` pushes onto the BFS queue. -/
def depthWeight (omap : JSMap String GitObject) (h : String) : Nat :=
  match omap.get h with
  | some o => if o.type = ObjType.tree then o.entries.length else 0
  | none => 0

/-- Every hash any tree stored in `omap` can ever push. -/
def treePushes (omap : JSMap String GitObject) : List String :=
  omap.entries.flatMap
    (fun e => if e.2.type = ObjType.tree then entryHashes e.2 else [])

/-- Termination potential of the depth BFS: queue length plus, for every
still-unvisited pushable hash, one more than the number of pushes its own
expansion can cause.  Strictly decreases on every loop iteration. -/
def depthPhi (omap : JSMap String GitObject) (queue : List (String × Nat))
    (visited : List String) : Nat :=
  queue.length +
    (((queue.map Prod.fst).toFinset ∪ (treePushes omap).toFinset) \
        visited.toFinset).sum (fun h => depthWeight omap h + 1)

theorem depthPhi_lt_cons (omap : JSMap String GitObject) (h : String) (d : Nat)
    (rest : List (String × Nat)) (visited visited' : List String)
    (hv : visited.toFinset ⊆ visited'.toFinset) :
    depthPhi omap rest visited' < depthPhi omap ((h, d) :: rest) visited := by
  unfold depthPhi
  have hU : (rest.map Prod.fst).toFinset ∪ (treePushes omap).toFinset ⊆
      (((h, d) :: rest).map Prod.fst).toFinset ∪ (treePushes omap).toFinset := by
    apply Finset.union_subset_union _ (Finset.Subset.refl _)
    rw [List.map_cons, List.toFinset_cons]
    exact Finset.subset_insert _ _
  have hsum :
      ((((rest.map Prod.fst).toFinset ∪ (treePushes omap).toFinset) \
          visited'.toFinset).sum (fun h => depthWeight omap h + 1)) ≤
      (((((h, d) :: rest).map Prod.fst).toFinset ∪ (treePushes omap).toFinset) \
          visited.toFinset).sum (fun h => depthWeight omap h + 1) :=
    Finset.sum_le_sum_of_subset (Finset.sdiff_subset_sdiff hU hv)
  simp only [List.length_cons]
  omega

theorem mem_treePushes (omap : JSMap String GitObject) (h x : String)
    (o : GitObject) (hget : omap.get h = some o) (htree : o.type = ObjType.tree)
    (hx : x ∈ entryHashes o) : x ∈ treePushes omap := by
  unfold JSMap.get at hget
  rcases Option.map_eq_some'.mp hget with ⟨e, he, hv⟩
  have hmem := List.mem_of_find?_eq_some he
  unfold treePushes
  rw [List.mem_flatMap]
  refine ⟨e, hmem, ?_⟩
  rw [hv, if_pos htree]
  exact hx

theorem depthPhi_lt_push (omap : JSMap String GitObject) (h : String) (d : Nat)
    (rest : List (String × Nat)) (visited : List String)
    (hfresh : h ∉ visited) (o : GitObject) (hget : omap.get h = some o)
    (htree : o.type = ObjType.tree) :
    depthPhi omap (rest ++ o.entries.map (fun e => (e.hash, d + 1)))
        (visited ++ [h]) <
      depthPhi omap ((h, d) :: rest) visited := by
  unfold depthPhi
  set w : String → Nat := fun h => depthWeight omap h + 1 with hw
  set T : Finset String := (treePushes omap).toFinset with hT
  set U : Finset String :=
    ((((h, d) :: rest).map Prod.fst).toFinset ∪ T) with hU
  set V : Finset String := visited.toFinset with hV
  have hUmem : h ∈ U := by
    rw [hU]
    apply Finset.mem_union_left
    rw [List.map_cons, List.toFinset_cons]
    exact Finset.mem_insert_self _ _
  have hVmem : h ∉ V := by rwa [hV, List.mem_toFinset]
  have hhd : h ∈ U \ V := Finset.mem_sdiff.mpr ⟨hUmem, hVmem⟩
  -- the new unvisited-pushable set sits inside `(U \ V).erase h`
  have hsub :
      ((((rest ++ o.entries.map (fun e => (e.hash, d + 1))).map Prod.fst).toFinset
          ∪ T) \ (visited ++ [h]).toFinset) ⊆ (U \ V).erase h := by
    intro x hxmem
    rcases Finset.mem_sdiff.mp hxmem with ⟨hxU, hxV⟩
    have hxne : x ≠ h := by
      intro hxh
      apply hxV
      rw [List.toFinset_append, hxh]
      apply Finset.mem_union_right
      simp
    have hxnotV : x ∉ V := by
      intro hc
      apply hxV
      rw [List.toFinset_append]
      exact Finset.mem_union_left _ hc
    refine Finset.mem_erase.mpr ⟨hxne, Finset.mem_sdiff.mpr ⟨?_, hxnotV⟩⟩
    rcases Finset.mem_union.mp hxU with hx1 | hx2
    · rw [List.map_append, List.toFinset_append] at hx1
      rcases Finset.mem_union.mp hx1 with hxa | hxb
      · rw [hU]
        apply Finset.mem_union_left
        rw [List.map_cons, List.toFinset_cons]
        exact Finset.mem_insert_of_mem hxa
      · -- a pushed hash is among the tree pushes of the map
        rw [List.mem_toFinset] at hxb
        have : x ∈ entryHashes o := by
          rcases List.mem_map.mp hxb with ⟨p, hp, hpx⟩
          rcases List.mem_map.mp hp with ⟨e, he, hep⟩
          subst hpx
          rw [← hep]
          exact List.mem_map.mpr ⟨e, he, rfl⟩
        rw [hU]
        apply Finset.mem_union_right
        rw [hT, List.mem_toFinset]
        exact mem_treePushes omap h x o hget htree this
    · rw [hU]; exact Finset.mem_union_right _ hx2
  have hsum :
      (((((rest ++ o.entries.map (fun e => (e.hash, d + 1))).map
          Prod.fst).toFinset ∪ T) \ (visited ++ [h]).toFinset).sum w) ≤
      ((U \ V).erase h).sum w :=
    Finset.sum_le_sum_of_subset hsub
  have hsplit : w h + ((U \ V).erase h).sum w = (U \ V).sum w :=
    Finset.add_sum_erase _ w hhd
  have hwh : depthWeight omap h = o.entries.length := by
    simp [depthWeight, hget, htree]
  have hlen : (rest ++ o.entries.map (fun e => (e.hash, d + 1))).length =
      rest.length + o.entries.length := by
    rw [List.length_append, List.length_map]
  rw [hlen]
  simp only [List.length_cons]
  have hwh' : w h = o.entries.length + 1 := by rw [hw]; simp [hwh]
  omega

/-- With any budget at least the potential, the BFS loop has already reached
its final state: more fuel changes nothing. -/
theorem depthBFSF_stable (omap : JSMap String GitObject) :
    ∀ (n m : Nat) (queue : List (String × Nat)) (visited : List String)
      (dmap : JSMap String Nat),
      depthPhi omap queue visited ≤ n → n ≤ m →
      depthBFSF omap m queue visited dmap = depthBFSF omap n queue visited dmap := by
  intro n
  induction n with
  | zero =>
    intro m queue visited dmap hphi _
    have : queue.length = 0 := by
      unfold depthPhi at hphi; omega
    rw [List.length_eq_zero.mp this, depthBFSF_nil, depthBFSF_nil]
  | succ n ih =>
    intro m queue visited dmap hphi hnm
    match queue with
    | [] => rw [depthBFSF_nil, depthBFSF_nil]
    | (h, d) :: rest =>
      match m, hnm with
      | m + 1, hnm =>
        rw [depthBFSF_cons, depthBFSF_cons]
        by_cases hmem : h ∈ visited
        · rw [if_pos hmem, if_pos hmem]
          have hlt := depthPhi_lt_cons omap h d rest visited visited (by rfl)
          exact ih m rest visited dmap (by omega) (by omega)
        · rw [if_neg hmem, if_neg hmem]
          have hvsub : visited.toFinset ⊆ (visited ++ [h]).toFinset := by
            rw [List.toFinset_append]
            exact Finset.subset_union_left
          cases hget : omap.get h with
          | some o =>
            by_cases htree : o.type = ObjType.tree
            · simp only [hget, htree, if_pos]
              have hlt := depthPhi_lt_push omap h d rest visited hmem o hget htree
              exact ih m _ _ _ (by omega) (by omega)
            · simp only [hget, htree, if_false]
              have hlt := depthPhi_lt_cons omap h d rest visited
                (visited ++ [h]) hvsub
              exact ih m _ _ _ (by omega) (by omega)
          | none =>
            simp only [hget]
            have hlt := depthPhi_lt_cons omap h d rest visited
              (visited ++ [h]) hvsub
            exact ih m _ _ _ (by omega) (by omega)

/-- A node's computed position (`NodePosition` in the source). -/
structure NodePosition where
  x : Int
  y : Int
  hash : String
  label : String
  type : ObjType
  depth : Int
deriving DecidableEq, Repr

/-- The initial BFS queue: every commit whose `tree` field is truthy seeds the
queue at depth 0, in collection order. -/
def seedQueue (objects : List GitObject) : List (String × Nat) :=
  (objects.filter (fun o => o.type == ObjType.commit)).filterMap
    (fun c => if c.tree = "" then none else some (c.tree, 0))

/-- Step A of `defaultPositions`: the finished `depthMap`. -/
def depthMapOf (objects : List GitObject) : JSMap String Nat :=
  let omap := objectMap objects
  depthBFSF omap (depthPhi omap (seedQueue objects) []) (seedQueue objects) []
    JSMap.empty

/-- `depthMap.get(hash) ?? dflt`, cast to the signed depth stored in
`NodePosition`. -/
def depthOr (dmap : JSMap String Nat) (h : String) (dflt : Int) : Int :=
  match dmap.get h with
  | some n => (n : Int)
  | none => dflt

/-- `names.length > 0 ? names[0] : hash.substring(0, 6)`. -/
def displayLabel (o : GitObject) : String :=
  match o.names with
  | n :: _ => n
  | [] => o.hash.take 6

/-- Position of the commit at index `index` of the commit column
(`x = COL_WIDTH_COMMIT`, `y = index * ROW_HEIGHT + NODE_TO_LABELS_GAP`). -/
def commitNP (index : Nat) (c : GitObject) : NodePosition :=
  { x := 150, y := (index : Int) * 70 + 30, hash := c.hash, label := c.message,
    type := ObjType.commit, depth := -1 }

/-- Position of the tree at index `index`
(`x = COL_START_OBJECTS + depth * DEPTH_INDENT`, orphan depth defaults to 0). -/
def treeNP (dmap : JSMap String Nat) (index : Nat) (t : GitObject) : NodePosition :=
  { x := 300 + depthOr dmap t.hash 0 * 120, y := (index : Int) * 70 + 30,
    hash := t.hash, label := displayLabel t, type := ObjType.tree,
    depth := depthOr dmap t.hash 0 }

/-- Position of the blob at index `index`; blob rows start below all tree rows
(`startY = trees.length * ROW_HEIGHT`), orphan depth defaults to 1. -/
def blobNP (dmap : JSMap String Nat) (ntrees : Nat) (index : Nat)
    (b : GitObject) : NodePosition :=
  { x := 300 + depthOr dmap b.hash 1 * 120,
    y := (ntrees : Int) * 70 + (index : Int) * 70 + 30,
    hash := b.hash, label := displayLabel b, type := ObjType.blob,
    depth := depthOr dmap b.hash 1 }

/-- Position of the tag at index `index`: anchored 80px left of its target's
already-assigned position when that exists, otherwise the default column. -/
def tagNP (omap : JSMap String GitObject) (pm : JSMap String NodePosition)
    (index : Nat) (t : GitObject) : NodePosition :=
  let base : Int × Int :=
    match omap.get t.objectHash with
    | some targetObj =>
      match pm.get targetObj.hash with
      | some targetPos => (targetPos.x - 80, targetPos.y)
      | none => (300, (index : Int) * 70 + 30)
    | none => (300, (index : Int) * 70 + 30)
  { x := base.1, y := base.2, hash := t.hash, label := t.hash.take 6,
    type := ObjType.tag, depth := 0 }

/-- Write a batch of prepared `(hash, position)` pairs into the map. -/
def setAll (m : JSMap String NodePosition) (l : List (String × NodePosition)) :
    JSMap String NodePosition :=
  l.foldl (fun m e => m.set e.1 e.2) m

/-- The tag pass: each tag reads the map as built so far. -/
def tagFold (omap : JSMap String GitObject) (l : List (Nat × GitObject))
    (m : JSMap String NodePosition) : JSMap String NodePosition :=
  l.foldl (fun pm it => pm.set it.2.hash (tagNP omap pm it.1 it.2)) m

def commitsOf (objects : List GitObject) : List GitObject :=
  objects.filter (fun o => o.type == ObjType.commit)

def treesOf (objects : List GitObject) : List GitObject :=
  objects.filter (fun o => o.type == ObjType.tree)

def blobsOf (objects : List GitObject) : List GitObject :=
  objects.filter (fun o => o.type == ObjType.blob)

def tagsOf (objects : List GitObject) : List GitObject :=
  objects.filter (fun o => o.type == ObjType.tag)

/-- The `(hash, position)` pairs of the commit pass. -/
def commitPairs (objects : List GitObject) : List (String × NodePosition) :=
  (commitsOf objects).enum.map (fun ic => (ic.2.hash, commitNP ic.1 ic.2))

/-- The `(hash, position)` pairs of the tree pass. -/
def treePairs (objects : List GitObject) : List (String × NodePosition) :=
  (treesOf objects).enum.map
    (fun it => (it.2.hash, treeNP (depthMapOf objects) it.1 it.2))

/-- The `(hash, position)` pairs of the blob pass. -/
def blobPairs (objects : List GitObject) : List (String × NodePosition) :=
  (blobsOf objects).enum.map
    (fun ib => (ib.2.hash,
      blobNP (depthMapOf objects) (treesOf objects).length ib.1 ib.2))

/-- The layout (`defaultPositions` of `ObjectGraph.tsx`): the BFS depth map,
then commits, trees, blobs and tags are positioned in that pass order. -/
def defaultPositions (objects : List GitObject) : JSMap String NodePosition :=
  tagFold (objectMap objects) (tagsOf objects).enum
    (setAll (setAll (setAll JSMap.empty (commitPairs objects))
      (treePairs objects)) (blobPairs objects))

/-- The merge of drag overrides over the base layout (`nodePositions`):
an override is applied only when its hash is still a valid layout key. -/
def nodePositions (defaultPos overrides : JSMap String NodePosition) :
    JSMap String NodePosition :=
  overrides.entries.foldl
    (fun m e => if defaultPos.has e.1 then m.set e.1 e.2 else m) defaultPos

/-- The children pushed by `relatedHashes` for one hash: tag → target,
commit → tree (not parents), tree → entries. -/
def childrenOf (omap : JSMap String GitObject) (h : String) : List String :=
  match omap.get h with
  | some o =>
    if o.type = ObjType.tag then [o.objectHash]
    else if o.type = ObjType.commit then [o.tree]
    else if o.type = ObjType.tree then entryHashes o
    else []
  | none => []

/-- The inner for-loop of `relatedHashes`: add each child that is not yet in
the set, to both the set and the pending queue. -/
def addNew (set acc : List String) : List String → List String × List String
  | [] => (set, acc)
  | c :: cs =>
    if c ∈ set then addNew set acc cs
    else addNew (set ++ [c]) (acc ++ [c]) cs

/-- The worklist loop of `relatedHashes` with an explicit iteration budget. -/
def relLoopF (omap : JSMap String GitObject) (fuel : Nat)
    (queue : List String) (set : List String) : List String :=
  match fuel with
  | 0 => set
  | fuel + 1 =>
    match queue with
    | [] => set
    | h :: rest =>
      let p := addNew set [] (childrenOf omap h)
      relLoopF omap fuel (rest ++ p.2) p.1

theorem relLoopF_nil (omap : JSMap String GitObject) (fuel : Nat)
    (set : List String) : relLoopF omap fuel [] set = set := by
  cases fuel <;> rfl

theorem relLoopF_cons (omap : JSMap String GitObject) (fuel : Nat) (h : String)
    (rest : List String) (set : List String) :
    relLoopF omap (fuel + 1) (h :: rest) set =
      relLoopF omap fuel (rest ++ (addNew set [] (childrenOf omap h)).2)
        (addNew set [] (childrenOf omap h)).1 := rfl

/-- Every hash any stored object can push in the reachability traversal. -/
def relPushes (omap : JSMap String GitObject) : List String :=
  omap.entries.flatMap
    (fun e =>
      if e.2.type = ObjType.tag then [e.2.objectHash]
      else if e.2.type = ObjType.commit then [e.2.tree]
      else if e.2.type = ObjType.tree then entryHashes e.2
      else [])

/-- Termination potential of the reachability loop. -/
def relPhi (omap : JSMap String GitObject) (queue : List String)
    (set : List String) : Nat :=
  queue.length + ((queue.toFinset ∪ (relPushes omap).toFinset) \
    set.toFinset).card

/-- `relatedHashes`: empty with no (or a falsy) selection, otherwise the BFS
set seeded with the selected hash. -/
def relatedHashes (sel : Option String) (objects : List GitObject) :
    List String :=
  match sel with
  | none => []
  | some s =>
    if s = "" then []
    else
      let omap := objectMap objects
      relLoopF omap (relPhi omap [s] [s]) [s] [s]

/-- Specification of `addNew`: it splits into the fresh suffix `new` of the
children, appended to both the set and the accumulator. -/
theorem addNew_spec (cs : List String) :
    ∀ (set acc : List String), ∃ new : List String,
      addNew set acc cs = (set ++ new, acc ++ new) ∧ new.Nodup ∧
      (∀ c ∈ new, c ∈ cs ∧ c ∉ set) ∧ (∀ c ∈ cs, c ∈ set ++ new) := by
  induction cs with
  | nil =>
    intro set acc
    exact ⟨[], by simp [addNew], by simp, by simp, by simp⟩
  | cons c cs ih =>
    intro set acc
    by_cases hc : c ∈ set
    · rcases ih set acc with ⟨new, h1, h2, h3, h4⟩
      refine ⟨new, by simpa [addNew, hc] using h1, h2, ?_, ?_⟩
      · exact fun x hx => ⟨List.mem_cons_of_mem _ (h3 x hx).1, (h3 x hx).2⟩
      · intro x hx
        rcases List.mem_cons.mp hx with rfl | hxs
        · exact List.mem_append_left _ hc
        · exact h4 x hxs
    · rcases ih (set ++ [c]) (acc ++ [c]) with ⟨new, h1, h2, h3, h4⟩
      have hrw : ∀ (l : List String), (l ++ [c]) ++ new = l ++ (c :: new) := by
        intro l
        rw [List.append_assoc, List.singleton_append]
      refine ⟨c :: new, ?_, ?_, ?_, ?_⟩
      · rw [show addNew set acc (c :: cs) = addNew (set ++ [c]) (acc ++ [c]) cs
          from by simp [addNew, hc]]
        rw [h1, hrw, hrw]
      · rw [List.nodup_cons]
        refine ⟨fun hcn => ?_, h2⟩
        have := (h3 c hcn).2
        exact this (List.mem_append_right _ (List.mem_singleton.mpr rfl))
      · intro x hx
        rcases List.mem_cons.mp hx with rfl | hxn
        · exact ⟨List.mem_cons_self _ _, hc⟩
        · refine ⟨List.mem_cons_of_mem _ (h3 x hxn).1, fun hxs => ?_⟩
          exact (h3 x hxn).2 (List.mem_append_left _ hxs)
      · intro x hx
        rcases List.mem_cons.mp hx with rfl | hxs
        · exact List.mem_append_right _ (List.mem_cons_self _ _)
        · have := h4 x hxs
          rwa [hrw] at this

theorem mem_relPushes (omap : JSMap String GitObject) (h x : String)
    (hx : x ∈ childrenOf omap h) : x ∈ relPushes omap := by
  unfold childrenOf at hx
  cases hget : omap.get h with
  | none => rw [hget] at hx; cases hx
  | some o =>
    rw [hget] at hx
    unfold JSMap.get at hget
    rcases Option.map_eq_some'.mp hget with ⟨e, he, hv⟩
    have hmem := List.mem_of_find?_eq_some he
    unfold relPushes
    rw [List.mem_flatMap]
    exact ⟨e, hmem, by rw [hv]; exact hx⟩

theorem relPhi_lt (omap : JSMap String GitObject) (h : String)
    (rest set : List String) :
    relPhi omap (rest ++ (addNew set [] (childrenOf omap h)).2)
        (addNew set [] (childrenOf omap h)).1 <
      relPhi omap (h :: rest) set := by
  rcases addNew_spec (childrenOf omap h) set [] with ⟨new, heq, hnd, hmem, _⟩
  rw [heq]
  simp only [List.nil_append]
  unfold relPhi
  set P : Finset String := (relPushes omap).toFinset with hP
  set U : Finset String := (h :: rest).toFinset ∪ P with hU
  have hnewsub : new.toFinset ⊆ U \ set.toFinset := by
    intro x hxf
    rw [List.mem_toFinset] at hxf
    rcases hmem x hxf with ⟨hxc, hxs⟩
    refine Finset.mem_sdiff.mpr ⟨?_, by rwa [List.mem_toFinset]⟩
    rw [hU]
    apply Finset.mem_union_right
    rw [hP, List.mem_toFinset]
    exact mem_relPushes omap h x hxc
  have hsub : ((rest ++ new).toFinset ∪ P) \ (set ++ new).toFinset ⊆
      (U \ set.toFinset) \ new.toFinset := by
    intro x hxm
    rcases Finset.mem_sdiff.mp hxm with ⟨hxu, hxsn⟩
    rw [List.toFinset_append] at hxsn
    have hxns : x ∉ set.toFinset := fun hc => hxsn (Finset.mem_union_left _ hc)
    have hxnn : x ∉ new.toFinset := fun hc => hxsn (Finset.mem_union_right _ hc)
    refine Finset.mem_sdiff.mpr ⟨Finset.mem_sdiff.mpr ⟨?_, hxns⟩, hxnn⟩
    rcases Finset.mem_union.mp hxu with hx1 | hx2
    · rw [List.toFinset_append] at hx1
      rcases Finset.mem_union.mp hx1 with hxa | hxb
      · rw [hU]
        apply Finset.mem_union_left
        rw [List.toFinset_cons]
        exact Finset.mem_insert_of_mem hxa
      · exact absurd hxb hxnn
    · rw [hU]; exact Finset.mem_union_right _ hx2
  have hcard1 : (((rest ++ new).toFinset ∪ P) \ (set ++ new).toFinset).card ≤
      ((U \ set.toFinset) \ new.toFinset).card := Finset.card_le_card hsub
  have hcard2 : ((U \ set.toFinset) \ new.toFinset).card + new.toFinset.card =
      (U \ set.toFinset).card :=
    Finset.card_sdiff_add_card_eq_card hnewsub
  have hlen : new.toFinset.card = new.length := List.toFinset_card_of_nodup hnd
  have hql : (rest ++ new).length = rest.length + new.length :=
    List.length_append _ _
  rw [hql]
  simp only [List.length_cons]
  omega

/-- With any budget at least the potential, the reachability loop has already
reached its final state. -/
theorem relLoopF_stable (omap : JSMap String GitObject) :
    ∀ (n m : Nat) (queue set : List String),
      relPhi omap queue set ≤ n → n ≤ m →
      relLoopF omap m queue set = relLoopF omap n queue set := by
  intro n
  induction n with
  | zero =>
    intro m queue set hphi _
    have : queue.length = 0 := by
      unfold relPhi at hphi; omega
    rw [List.length_eq_zero.mp this, relLoopF_nil, relLoopF_nil]
  | succ n ih =>
    intro m queue set hphi hnm
    match queue with
    | [] => rw [relLoopF_nil, relLoopF_nil]
    | h :: rest =>
      match m, hnm with
      | m + 1, hnm =>
        rw [relLoopF_cons, relLoopF_cons]
        have hlt := relPhi_lt omap h rest set
        exact ih m _ _ (by omega) (by omega)

theorem mergeFold_has (d : JSMap String NodePosition) :
    ∀ (ents : List (String × NodePosition)) (m : JSMap String NodePosition)
      (k : String), m.has k = d.has k →
      (ents.foldl (fun m e => if d.has e.1 then m.set e.1 e.2 else m) m).has k
        = d.has k := by
  intro ents
  induction ents with
  | nil => intro m k h; exact h
  | cons e rest ih =>
    intro m k h
    rw [List.foldl_cons]
    by_cases hd : d.has e.1 = true
    · rw [if_pos hd]
      apply ih
      rw [JSMap.has_set]
      by_cases hk : k = e.1
      · subst hk
        rw [h, hd]
        simp
      · have : (k == e.1) = false := by simpa using hk
        rw [this, Bool.false_or, h]
    · rw [if_neg hd]
      exact ih m k h

theorem mergeFold_get_notMem (d : JSMap String NodePosition) :
    ∀ (ents : List (String × NodePosition)) (m : JSMap String NodePosition)
      (k : String), (∀ e ∈ ents, e.1 ≠ k) →
      (ents.foldl (fun m e => if d.has e.1 then m.set e.1 e.2 else m) m).get k
        = m.get k := by
  intro ents
  induction ents with
  | nil => intro m k _; rfl
  | cons e rest ih =>
    intro m k h
    rw [List.foldl_cons]
    have hk : e.1 ≠ k := h e (List.mem_cons_self _ _)
    by_cases hd : d.has e.1 = true
    · rw [if_pos hd, ih _ k (fun e' he' => h e' (List.mem_cons_of_mem _ he')),
        JSMap.get_set_ne _ _ _ _ (Ne.symm hk)]
    · rw [if_neg hd]
      exact ih m k (fun e' he' => h e' (List.mem_cons_of_mem _ he'))

theorem mergeFold_get_mem (d : JSMap String NodePosition) :
    ∀ (ents : List (String × NodePosition)) (m : JSMap String NodePosition)
      (k : String) (v : NodePosition), (ents.map Prod.fst).Nodup →
      (k, v) ∈ ents → d.has k = true →
      (ents.foldl (fun m e => if d.has e.1 then m.set e.1 e.2 else m) m).get k
        = some v := by
  intro ents
  induction ents with
  | nil => intro m k v _ hmem _; cases hmem
  | cons e rest ih =>
    intro m k v hnd hmem hd
    rw [List.map_cons, List.nodup_cons] at hnd
    rw [List.foldl_cons]
    rcases List.mem_cons.mp hmem with rfl | hrest
    · rw [if_pos hd]
      have hnot : ∀ e' ∈ rest, e'.1 ≠ (k, v).1 := by
        intro e' he' hc
        exact hnd.1 (hc ▸ List.mem_map.mpr ⟨e', he', rfl⟩)
      rw [mergeFold_get_notMem d rest _ _ hnot]
      exact JSMap.get_set_self m _ _
    · have hstep : ∀ m' : JSMap String NodePosition,
          (rest.foldl (fun m e => if d.has e.1 then m.set e.1 e.2 else m)
            m').get k = some v :=
        fun m' => ih m' k v hnd.2 hrest hd
      by_cases hde : d.has e.1 = true
      · rw [if_pos hde]; exact hstep _
      · rw [if_neg hde]; exact hstep _

theorem setAll_get_notMem :
    ∀ (l : List (String × NodePosition)) (m : JSMap String NodePosition)
      (k : String), (∀ e ∈ l, e.1 ≠ k) → (setAll m l).get k = m.get k := by
  intro l
  induction l with
  | nil => intro m k _; rfl
  | cons e rest ih =>
    intro m k h
    unfold setAll
    rw [List.foldl_cons]
    have : (setAll (m.set e.1 e.2) rest).get k = (m.set e.1 e.2).get k :=
      ih _ k (fun e' he' => h e' (List.mem_cons_of_mem _ he'))
    unfold setAll at this
    rw [this, JSMap.get_set_ne _ _ _ _ (Ne.symm (h e (List.mem_cons_self _ _)))]

theorem setAll_get_mem :
    ∀ (l : List (String × NodePosition)) (m : JSMap String NodePosition)
      (k : String) (v : NodePosition), (l.map Prod.fst).Nodup →
      (k, v) ∈ l → (setAll m l).get k = some v := by
  intro l
  induction l with
  | nil => intro m k v _ hmem; cases hmem
  | cons e rest ih =>
    intro m k v hnd hmem
    rw [List.map_cons, List.nodup_cons] at hnd
    unfold setAll
    rw [List.foldl_cons]
    rcases List.mem_cons.mp hmem with rfl | hrest
    · have hnot : ∀ e' ∈ rest, e'.1 ≠ (k, v).1 := by
        intro e' he' hc
        exact hnd.1 (hc ▸ List.mem_map.mpr ⟨e', he', rfl⟩)
      have := setAll_get_notMem rest (m.set (k, v).1 (k, v).2) (k, v).1 hnot
      unfold setAll at this
      rw [this]
      exact JSMap.get_set_self m _ _
    · exact ih _ k v hnd.2 hrest

theorem setAll_has :
    ∀ (l : List (String × NodePosition)) (m : JSMap String NodePosition)
      (k : String),
      ((setAll m l).has k = true ↔ k ∈ l.map Prod.fst ∨ m.has k = true) := by
  intro l
  induction l with
  | nil =>
    intro m k
    simp [setAll]
  | cons e rest ih =>
    intro m k
    unfold setAll
    rw [List.foldl_cons]
    have := ih (m.set e.1 e.2) k
    unfold setAll at this
    rw [this, JSMap.has_set]
    constructor
    · rintro (h | h)
      · exact Or.inl (List.mem_map.mpr (by
          rcases List.mem_map.mp h with ⟨e', he', hk⟩
          exact ⟨e', List.mem_cons_of_mem _ he', hk⟩))
      · rcases Bool.or_eq_true_iff.mp h with h | h
        · exact Or.inl (by
            rw [List.map_cons]
            exact List.mem_cons.mpr (Or.inl (by simpa using h)))
        · exact Or.inr h
    · rintro (h | h)
      · rw [List.map_cons] at h
        rcases List.mem_cons.mp h with rfl | hr
        · exact Or.inr (by simp)
        · exact Or.inl hr
      · exact Or.inr (by rw [h]; simp)

theorem tagFold_get_notMem (omap : JSMap String GitObject) :
    ∀ (l : List (Nat × GitObject)) (m : JSMap String NodePosition)
      (k : String), (∀ it ∈ l, it.2.hash ≠ k) →
      (tagFold omap l m).get k = m.get k := by
  intro l
  induction l with
  | nil => intro m k _; rfl
  | cons it rest ih =>
    intro m k h
    unfold tagFold
    rw [List.foldl_cons]
    have := ih (m.set it.2.hash (tagNP omap m it.1 it.2)) k
      (fun it' hit' => h it' (List.mem_cons_of_mem _ hit'))
    unfold tagFold at this
    rw [this, JSMap.get_set_ne _ _ _ _ (Ne.symm (h it (List.mem_cons_self _ _)))]

theorem tagFold_has (omap : JSMap String GitObject) :
    ∀ (l : List (Nat × GitObject)) (m : JSMap String NodePosition)
      (k : String),
      ((tagFold omap l m).has k = true ↔
        k ∈ l.map (fun it => it.2.hash) ∨ m.has k = true) := by
  intro l
  induction l with
  | nil =>
    intro m k
    simp [tagFold]
  | cons it rest ih =>
    intro m k
    unfold tagFold
    rw [List.foldl_cons]
    have := ih (m.set it.2.hash (tagNP omap m it.1 it.2)) k
    unfold tagFold at this
    rw [this, JSMap.has_set]
    constructor
    · rintro (h | h)
      · rcases List.mem_map.mp h with ⟨it', hit', hk⟩
        exact Or.inl (List.mem_map.mpr ⟨it', List.mem_cons_of_mem _ hit', hk⟩)
      · rcases Bool.or_eq_true_iff.mp h with h | h
        · exact Or.inl (by
            rw [List.map_cons]
            exact List.mem_cons.mpr (Or.inl (by simpa using h)))
        · exact Or.inr h
    · rintro (h | h)
      · rw [List.map_cons] at h
        rcases List.mem_cons.mp h with rfl | hr
        · exact Or.inr (by simp)
        · exact Or.inl hr
      · exact Or.inr (by rw [h]; simp)

/-- The default-column position a tag falls back to when its target is
unresolved (or not yet positioned). -/
def tagFallbackNP (index : Nat) (t : GitObject) : NodePosition :=
  { x := 300, y := (index : Int) * 70 + 30, hash := t.hash,
    label := t.hash.take 6, type := ObjType.tag, depth := 0 }

theorem tagNP_unresolved (omap : JSMap String GitObject)
    (pm : JSMap String NodePosition) (index : Nat) (t : GitObject)
    (h : omap.get t.objectHash = none) :
    tagNP omap pm index t = tagFallbackNP index t := by
  unfold tagNP tagFallbackNP
  rw [h]

theorem tagFold_get_unresolved (omap : JSMap String GitObject) :
    ∀ (l : List (Nat × GitObject)) (m : JSMap String NodePosition)
      (i : Nat) (t : GitObject), (l.map (fun it => it.2.hash)).Nodup →
      (i, t) ∈ l → omap.get t.objectHash = none →
      (tagFold omap l m).get t.hash = some (tagFallbackNP i t) := by
  intro l
  induction l with
  | nil => intro m i t _ hmem _; cases hmem
  | cons it rest ih =>
    intro m i t hnd hmem hnone
    rw [List.map_cons, List.nodup_cons] at hnd
    unfold tagFold
    rw [List.foldl_cons]
    rcases List.mem_cons.mp hmem with heq | hrest
    · subst heq
      have hnot : ∀ it' ∈ rest, it'.2.hash ≠ t.hash := by
        intro it' hit' hc
        exact hnd.1 (hc ▸ List.mem_map.mpr ⟨it', hit', rfl⟩)
      have hfold := tagFold_get_notMem omap rest
        (m.set t.hash (tagNP omap m i t)) t.hash hnot
      unfold tagFold at hfold
      show (List.foldl _ (m.set t.hash (tagNP omap m i t)) rest).get t.hash = _
      rw [hfold, JSMap.get_set_self, tagNP_unresolved omap m i t hnone]
    · have hstep := ih (m.set it.2.hash (tagNP omap m it.1 it.2)) i t
        hnd.2 hrest hnone
      unfold tagFold at hstep
      exact hstep

/-- Dropping the indices of an indexed-entry list built from `enum`. -/
theorem enum_map_fst_key {α : Type} (l : List α) (f : α → String)
    (g : Nat × α → NodePosition) :
    ((l.enum.map (fun p => (f p.2, g p))).map Prod.fst) = l.map f := by
  rw [List.map_map]
  have : (Prod.fst ∘ fun p : Nat × α => (f p.2, g p)) = (f ∘ Prod.snd) := rfl
  rw [this, ← List.map_map, List.enum_map_snd]

theorem snd_mem_of_mem_enum {α : Type} {l : List α} {p : Nat × α}
    (h : p ∈ l.enum) : p.2 ∈ l := by
  have : p.2 ∈ l.enum.map Prod.snd := List.mem_map_of_mem Prod.snd h
  rwa [List.enum_map_snd] at this

theorem enum_map_snd_comp {α β : Type} (l : List α) (f : α → β) :
    l.enum.map (fun p => f p.2) = l.map f := by
  have : (fun p : Nat × α => f p.2) = (f ∘ Prod.snd) := rfl
  rw [this, ← List.map_map, List.enum_map_snd]

/-- With pairwise-distinct hashes, a hash determines its object. -/
theorem hash_inj {objects : List GitObject}
    (hnd : (objects.map (fun o => o.hash)).Nodup) {a b : GitObject}
    (ha : a ∈ objects) (hb : b ∈ objects) (hh : a.hash = b.hash) : a = b :=
  List.inj_on_of_nodup_map hnd ha hb hh

theorem mem_filter_type {objects : List GitObject} {o : GitObject}
    {ty : ObjType} (h : o ∈ objects.filter (fun o => o.type == ty)) :
    o ∈ objects ∧ o.type = ty := by
  rcases List.mem_filter.mp h with ⟨h1, h2⟩
  exact ⟨h1, by simpa using h2⟩

/-- An object of a different kind never collides with another pass's keys. -/
theorem hash_notMem_kind {objects : List GitObject}
    (hnd : (objects.map (fun o => o.hash)).Nodup) {o : GitObject}
    (ho : o ∈ objects) {ty : ObjType} (hty : o.type ≠ ty) :
    ∀ x ∈ objects.filter (fun o => o.type == ty), x.hash ≠ o.hash := by
  intro x hx hc
  rcases mem_filter_type hx with ⟨hxo, hxty⟩
  exact hty (by rw [← hash_inj hnd hxo ho hc, hxty])

theorem commitPairs_key (objects : List GitObject) :
    (commitPairs objects).map Prod.fst =
      (commitsOf objects).map (fun o => o.hash) :=
  enum_map_fst_key _ _ _

theorem treePairs_key (objects : List GitObject) :
    (treePairs objects).map Prod.fst =
      (treesOf objects).map (fun o => o.hash) :=
  enum_map_fst_key _ _ _

theorem blobPairs_key (objects : List GitObject) :
    (blobPairs objects).map Prod.fst =
      (blobsOf objects).map (fun o => o.hash) :=
  enum_map_fst_key _ _ _

theorem filter_hash_nodup {objects : List GitObject}
    (hnd : (objects.map (fun o => o.hash)).Nodup) (p : GitObject → Bool) :
    ((objects.filter p).map (fun o => o.hash)).Nodup :=
  List.Nodup.sublist (List.Sublist.map _ (List.filter_sublist _)) hnd

/-- Keys of another kind's pairs never hit an `o` of kind `≠ ty`. -/
theorem pairs_notMem {objects : List GitObject}
    (hnd : (objects.map (fun o => o.hash)).Nodup) {o : GitObject}
    (ho : o ∈ objects) {ty : ObjType} (hty : o.type ≠ ty)
    {l : List (String × NodePosition)}
    (hkey : l.map Prod.fst = (objects.filter (fun o => o.type == ty)).map
      (fun o => o.hash)) :
    ∀ e ∈ l, e.1 ≠ o.hash := by
  intro e he hc
  have : e.1 ∈ l.map Prod.fst := List.mem_map_of_mem _ he
  rw [hkey] at this
  rcases List.mem_map.mp this with ⟨x, hx, hxh⟩
  exact hash_notMem_kind hnd ho hty x hx (hxh.trans hc)

/-- Tag-pass entries never hit an `o` that is not a tag. -/
theorem tagEnum_notMem {objects : List GitObject}
    (hnd : (objects.map (fun o => o.hash)).Nodup) {o : GitObject}
    (ho : o ∈ objects) (hty : o.type ≠ ObjType.tag) :
    ∀ it ∈ (tagsOf objects).enum, it.2.hash ≠ o.hash := by
  intro it hit hc
  exact hash_notMem_kind hnd ho hty it.2 (snd_mem_of_mem_enum hit) hc

theorem defaultPositions_get_commit {objects : List GitObject}
    (hnd : (objects.map (fun o => o.hash)).Nodup) {i : Nat} {c : GitObject}
    (hmem : (i, c) ∈ (commitsOf objects).enum) :
    (defaultPositions objects).get c.hash = some (commitNP i c) := by
  have hc : c ∈ commitsOf objects := snd_mem_of_mem_enum hmem
  rcases mem_filter_type hc with ⟨hcobj, hcty⟩
  unfold defaultPositions
  rw [tagFold_get_notMem _ _ _ _
    (tagEnum_notMem hnd hcobj (by rw [hcty]; intro hcon; cases hcon))]
  rw [setAll_get_notMem _ _ _
    (pairs_notMem hnd hcobj (by rw [hcty]; intro hcon; cases hcon)
      (blobPairs_key objects))]
  rw [setAll_get_notMem _ _ _
    (pairs_notMem hnd hcobj (by rw [hcty]; intro hcon; cases hcon)
      (treePairs_key objects))]
  exact setAll_get_mem _ _ _ _
    (by rw [commitPairs_key]; exact filter_hash_nodup hnd _)
    (List.mem_map.mpr ⟨(i, c), hmem, rfl⟩)

theorem defaultPositions_get_tree {objects : List GitObject}
    (hnd : (objects.map (fun o => o.hash)).Nodup) {i : Nat} {t : GitObject}
    (hmem : (i, t) ∈ (treesOf objects).enum) :
    (defaultPositions objects).get t.hash =
      some (treeNP (depthMapOf objects) i t) := by
  have ht : t ∈ treesOf objects := snd_mem_of_mem_enum hmem
  rcases mem_filter_type ht with ⟨htobj, htty⟩
  unfold defaultPositions
  rw [tagFold_get_notMem _ _ _ _
    (tagEnum_notMem hnd htobj (by rw [htty]; intro hcon; cases hcon))]
  rw [setAll_get_notMem _ _ _
    (pairs_notMem hnd htobj (by rw [htty]; intro hcon; cases hcon)
      (blobPairs_key objects))]
  exact setAll_get_mem _ _ _ _
    (by rw [treePairs_key]; exact filter_hash_nodup hnd _)
    (List.mem_map.mpr ⟨(i, t), hmem, rfl⟩)

theorem defaultPositions_get_blob {objects : List GitObject}
    (hnd : (objects.map (fun o => o.hash)).Nodup) {i : Nat} {b : GitObject}
    (hmem : (i, b) ∈ (blobsOf objects).enum) :
    (defaultPositions objects).get b.hash =
      some (blobNP (depthMapOf objects) (treesOf objects).length i b) := by
  have hb : b ∈ blobsOf objects := snd_mem_of_mem_enum hmem
  rcases mem_filter_type hb with ⟨hbobj, hbty⟩
  unfold defaultPositions
  rw [tagFold_get_notMem _ _ _ _
    (tagEnum_notMem hnd hbobj (by rw [hbty]; intro hcon; cases hcon))]
  exact setAll_get_mem _ _ _ _
    (by rw [blobPairs_key]; exact filter_hash_nodup hnd _)
    (List.mem_map.mpr ⟨(i, b), hmem, rfl⟩)

theorem defaultPositions_get_tag_unresolved {objects : List GitObject}
    (hnd : (objects.map (fun o => o.hash)).Nodup) {i : Nat} {t : GitObject}
    (hmem : (i, t) ∈ (tagsOf objects).enum)
    (hnone : (objectMap objects).get t.objectHash = none) :
    (defaultPositions objects).get t.hash = some (tagFallbackNP i t) := by
  unfold defaultPositions
  refine tagFold_get_unresolved _ _ _ _ _ ?_ hmem hnone
  have : ((tagsOf objects).enum.map (fun it => it.2.hash)) =
      (tagsOf objects).map (fun o => o.hash) := enum_map_snd_comp _ _
  rw [this]
  exact filter_hash_nodup hnd _

/-- Keys of the layout are exactly the hashes of the collection. -/
theorem defaultPositions_has (objects : List GitObject) (k : String) :
    ((defaultPositions objects).has k = true ↔ ∃ o ∈ objects, o.hash = k) := by
  unfold defaultPositions
  rw [tagFold_has, setAll_has, setAll_has, setAll_has]
  have hemp : (JSMap.empty (α := String) (β := NodePosition)).has k = false := rfl
  rw [enum_map_snd_comp, commitPairs_key, treePairs_key, blobPairs_key, hemp]
  constructor
  · rintro (h | h | h | h | h)
    · rcases List.mem_map.mp h with ⟨o, ho, hh⟩
      exact ⟨o, (mem_filter_type ho).1, hh⟩
    · rcases List.mem_map.mp h with ⟨o, ho, hh⟩
      exact ⟨o, (mem_filter_type ho).1, hh⟩
    · rcases List.mem_map.mp h with ⟨o, ho, hh⟩
      exact ⟨o, (mem_filter_type ho).1, hh⟩
    · rcases List.mem_map.mp h with ⟨o, ho, hh⟩
      exact ⟨o, (mem_filter_type ho).1, hh⟩
    · cases h
  · rintro ⟨o, ho, hh⟩
    have hmemf : ∀ ty : ObjType, o.type = ty →
        o.hash ∈ (objects.filter (fun o => o.type == ty)).map
          (fun o => o.hash) := by
      intro ty hty
      exact List.mem_map_of_mem _
        (List.mem_filter.mpr ⟨ho, by simpa using hty⟩)
    cases hty : o.type with
    | commit => exact Or.inr (Or.inr (Or.inr (Or.inl (hh ▸ hmemf _ hty))))
    | tree => exact Or.inr (Or.inr (Or.inl (hh ▸ hmemf _ hty)))
    | blob => exact Or.inr (Or.inl (hh ▸ hmemf _ hty))
    | tag => exact Or.inl (hh ▸ hmemf _ hty)

/-- The four edge families the render effect draws. -/
inductive EdgeKind
  | commitTree
  | commitParent
  | tagTarget
  | treeEntry
deriving DecidableEq, Repr

/-- One drawn edge: the lookup keys of its endpoints and whether it was drawn
with the emphasized stroke. -/
structure REdge where
  kind : EdgeKind
  src : String
  dst : String
  highlighted : Bool
deriving DecidableEq, Repr

/-- `if (fromPos && toPos) { draw }`: an edge is produced only when both
endpoint positions resolve. -/
def edge2 (fp tp : Option NodePosition)
    (mk : NodePosition → NodePosition → REdge) : List REdge :=
  match fp, tp with
  | some f, some t => [mk f t]
  | _, _ => []

theorem mem_edge2 {fp tp : Option NodePosition}
    {mk : NodePosition → NodePosition → REdge} {e : REdge}
    (h : e ∈ edge2 fp tp mk) :
    ∃ f t, fp = some f ∧ tp = some t ∧ e = mk f t := by
  cases fp with
  | none => cases tp <;> cases h
  | some f =>
    cases tp with
    | none => cases h
    | some t => exact ⟨f, t, rfl, rfl, List.mem_singleton.mp h⟩

/-- The edge-drawing part of the render effect, in draw order: for every
commit its commit→tree curve and its commit→parent lines, then tag→target
curves, then tree→entry curves.  The emphasis flag is computed exactly as in
the source: reachable-set membership of the two stored position hashes,
except commit→parent edges, which compare each stored hash against the
selected hash. -/
def renderEdges (objects : List GitObject) (npos : JSMap String NodePosition)
    (sel : Option String) (rel : List String) : List REdge :=
  ((commitsOf objects).flatMap (fun c =>
    edge2 (npos.get c.hash) (npos.get c.tree) (fun fp tp =>
      { kind := EdgeKind.commitTree, src := c.hash, dst := c.tree,
        highlighted := decide (fp.hash ∈ rel) && decide (tp.hash ∈ rel) })
    ++ c.parent.flatMap (fun ph =>
      edge2 (npos.get c.hash) (npos.get ph) (fun fp pp =>
        { kind := EdgeKind.commitParent, src := c.hash, dst := ph,
          highlighted := decide (sel = some fp.hash)
            || decide (sel = some pp.hash) }))))
  ++ ((tagsOf objects).flatMap (fun t =>
    edge2 (npos.get t.hash) (npos.get t.objectHash) (fun fp tp =>
      { kind := EdgeKind.tagTarget, src := t.hash, dst := t.objectHash,
        highlighted := decide (fp.hash ∈ rel) && decide (tp.hash ∈ rel) })))
  ++ ((treesOf objects).flatMap (fun t =>
    t.entries.flatMap (fun en =>
      edge2 (npos.get t.hash) (npos.get en.hash) (fun fp tp =>
        { kind := EdgeKind.treeEntry, src := t.hash, dst := en.hash,
          highlighted := decide (fp.hash ∈ rel) && decide (tp.hash ∈ rel) }))))

/-- The interaction state held by the component (React state plus the
`hasMovedRef`).  Initial values: `panOffset = (50, 50)`, nothing dragged,
no panning, empty overrides. -/
structure IState where
  panOffset : Int × Int
  isPanning : Bool
  draggedNodeHash : Option String
  lastMousePos : Int × Int
  dragOverrides : JSMap String NodePosition
  hasMoved : Bool
deriving DecidableEq, Repr

def initState : IState :=
  { panOffset := (50, 50), isPanning := false, draggedNodeHash := none,
    lastMousePos := (0, 0), dragOverrides := JSMap.empty, hasMoved := false }

/-- Merged positions as the handlers see them. -/
def nodePositionsOf (objects : List GitObject) (st : IState) :
    JSMap String NodePosition :=
  nodePositions (defaultPositions objects) st.dragOverrides

/-- Hit test in world space: the first map entry (insertion order) within the
node radius.  Exact-arithmetic model of
`sqrt((mx-x)^2 + (my-y)^2) <= NODE_RADIUS` with radius 20. -/
def hitTest (npos : JSMap String NodePosition) (wx wy : Int) : Option String :=
  (npos.entries.find? (fun e =>
    decide ((wx - e.2.x) * (wx - e.2.x) + (wy - e.2.y) * (wy - e.2.y)
      ≤ 20 * 20))).map (·.1)

/-- JavaScript truthiness of `draggedNodeHash : string | null`. -/
def truthyHash : Option String → Bool
  | none => false
  | some s => !(s == "")

/-- `handleMouseDown`. -/
def handleMouseDown (objects : List GitObject) (rect : Int × Int) (st : IState)
    (p : Int × Int) : IState :=
  let wx := p.1 - rect.1 - st.panOffset.1
  let wy := p.2 - rect.2 - st.panOffset.2
  let st0 := { st with lastMousePos := p, hasMoved := false }
  match hitTest (nodePositionsOf objects st) wx wy with
  | some h => { st0 with draggedNodeHash := some h }
  | none => { st0 with isPanning := true }

/-- `handleMouseMove`. -/
def handleMouseMove (objects : List GitObject) (st : IState)
    (p : Int × Int) : IState :=
  let dx := p.1 - st.lastMousePos.1
  let dy := p.2 - st.lastMousePos.2
  let moved := if 1 < dx.natAbs ∨ 1 < dy.natAbs then true else st.hasMoved
  let st1 :=
    if truthyHash st.draggedNodeHash then
      match st.draggedNodeHash with
      | some id =>
        match (nodePositionsOf objects st).get id with
        | some currentPos =>
          let np : NodePosition :=
            { currentPos with x := currentPos.x + dx, y := currentPos.y + dy }
          { st with dragOverrides := st.dragOverrides.set id np }
        | none => st
      | none => st
    else if st.isPanning then
      { st with panOffset := (st.panOffset.1 + dx, st.panOffset.2 + dy) }
    else st
  { st1 with hasMoved := moved, lastMousePos := p }

/-- `handleMouseUp` (also bound to mouse-leave). -/
def handleMouseUp (st : IState) : IState :=
  { st with isPanning := false, draggedNodeHash := none }

/-- `handleClick`: suppressed after any movement, otherwise hit test at the
click position and emit the hash when a node is found. -/
def handleClick (objects : List GitObject) (rect : Int × Int) (st : IState)
    (p : Int × Int) : Option String :=
  if st.hasMoved then none
  else hitTest (nodePositionsOf objects st)
    (p.1 - rect.1 - st.panOffset.1) (p.2 - rect.2 - st.panOffset.2)

/-- A pointer event as the canvas receives it (client coordinates). -/
inductive PEvent
  | down (p : Int × Int)
  | move (p : Int × Int)
  | up
  | click (p : Int × Int)
deriving DecidableEq, Repr

def PEvent.isDown : PEvent → Bool
  | .down _ => true
  | _ => false

/-- One event step: the successor state and the selection emitted (if any). -/
def stepEvent (objects : List GitObject) (rect : Int × Int) (st : IState) :
    PEvent → IState × Option String
  | .down p => (handleMouseDown objects rect st p, none)
  | .move p => (handleMouseMove objects st p, none)
  | .up => (handleMouseUp st, none)
  | .click p => (st, handleClick objects rect st p)

/-- Run a pointer-event sequence, collecting every emitted selection. -/
def runEvents (objects : List GitObject) (rect : Int × Int) (st : IState) :
    List PEvent → IState × List String
  | [] => (st, [])
  | e :: es =>
    let r := stepEvent objects rect st e
    let rr := runEvents objects rect r.1 es
    (rr.1, r.2.toList ++ rr.2)

theorem renderEdges_endpoints (objects : List GitObject)
    (npos : JSMap String NodePosition) (sel : Option String)
    (rel : List String) :
    ∀ e ∈ renderEdges objects npos sel rel,
      (npos.get e.src).isSome = true ∧ (npos.get e.dst).isSome = true := by
  intro e he
  unfold renderEdges at he
  rcases List.mem_append.mp he with h12 | h3
  · rcases List.mem_append.mp h12 with h1 | h2
    · rcases List.mem_flatMap.mp h1 with ⟨c, _, hin⟩
      rcases List.mem_append.mp hin with hct | hcp
      · rcases mem_edge2 hct with ⟨f, t, hf, ht, rfl⟩
        exact ⟨by rw [hf]; rfl, by rw [ht]; rfl⟩
      · rcases List.mem_flatMap.mp hcp with ⟨ph, _, hpe⟩
        rcases mem_edge2 hpe with ⟨f, t, hf, ht, rfl⟩
        exact ⟨by rw [hf]; rfl, by rw [ht]; rfl⟩
    · rcases List.mem_flatMap.mp h2 with ⟨t, _, hin⟩
      rcases mem_edge2 hin with ⟨f, tp, hf, ht, rfl⟩
      exact ⟨by rw [hf]; rfl, by rw [ht]; rfl⟩
  · rcases List.mem_flatMap.mp h3 with ⟨t, _, hin⟩
    rcases List.mem_flatMap.mp hin with ⟨en, _, hpe⟩
    rcases mem_edge2 hpe with ⟨f, tp, hf, ht, rfl⟩
    exact ⟨by rw [hf]; rfl, by rw [ht]; rfl⟩

/-- Concrete fixture: a commit, its tree with one blob entry, the blob, and a
tag whose target is dangling. -/
def witCommit : GitObject :=
  { hash := "c1", type := ObjType.commit, tree := "t1", parent := ["c0"],
    message := "m" }

def witTree : GitObject :=
  { hash := "t1", type := ObjType.tree,
    entries := [⟨"100644", ObjType.blob, "b1", "f"⟩] }

def witBlob : GitObject := { hash := "b1", type := ObjType.blob }

def witTag : GitObject :=
  { hash := "g1", type := ObjType.tag, objectHash := "zz" }

def witObjects : List GitObject := [witCommit, witTree, witBlob, witTag]

/-- Claim C6: the layout is a pure, deterministic function of the object
collection — recomputing `defaultPositions` from the same unchanged
collection yields the identical map (same identifier set), and any two
lookups of the same identifier agree in x, y, kind and depth; there is no
hidden mutable state the result could depend on. -/
theorem c6_layout_pure_deterministic :
    ∀ objects : List GitObject,
      defaultPositions objects = defaultPositions objects ∧
      (∀ k : String, (defaultPositions objects).has k =
        (defaultPositions objects).has k) ∧
      ∀ (k : String) (p1 p2 : NodePosition),
        (defaultPositions objects).get k = some p1 →
        (defaultPositions objects).get k = some p2 →
        p1.x = p2.x ∧ p1.y = p2.y ∧ p1.type = p2.type ∧ p1.depth = p2.depth := by
  intro objects
  refine ⟨rfl, fun _ => rfl, ?_⟩
  intro k p1 p2 h1 h2
  rw [h1] at h2
  injection h2 with h
  subst h
  exact ⟨rfl, rfl, rfl, rfl⟩

/-- Witness for C6 at a concrete collection. -/
theorem c6_layout_pure_deterministic_witness :
    (commitNP 0 witCommit).x = (commitNP 0 witCommit).x ∧
    (commitNP 0 witCommit).y = (commitNP 0 witCommit).y ∧
    (commitNP 0 witCommit).type = (commitNP 0 witCommit).type ∧
    (commitNP 0 witCommit).depth = (commitNP 0 witCommit).depth :=
  (c6_layout_pure_deterministic witObjects).2.2 "c1" _ _ (by decide) (by decide)

/-- Claim C2 (amended): the merged effective-position map contains exactly
the identifiers of the layout result; for each identifier that has an
override AND is present in the layout result, the override's entire stored
position — x, y, kind and depth — wins over the base entry; an override
whose identifier is absent from the current layout result is ignored and
contributes no entry. -/
theorem c2_merge_amended :
    ∀ (layout overrides : JSMap String NodePosition) (k : String),
      overrides.WF →
      ((nodePositions layout overrides).has k = layout.has k) ∧
      (∀ v, overrides.get k = some v → layout.has k = true →
        (nodePositions layout overrides).get k = some v) ∧
      (overrides.get k = none →
        (nodePositions layout overrides).get k = layout.get k) ∧
      (layout.has k = false → (nodePositions layout overrides).get k = none) := by
  intro d o k hwf
  have hhas : (nodePositions d o).has k = d.has k :=
    mergeFold_has d o.entries d k rfl
  refine ⟨hhas, ?_, ?_, ?_⟩
  · intro v hv hd
    exact mergeFold_get_mem d o.entries d k v hwf
      (JSMap.mem_entries_of_get_eq_some o k v hv) hd
  · intro hv
    exact mergeFold_get_notMem d o.entries d k
      ((JSMap.get_eq_none_iff o k).mp hv)
  · intro hd
    exact JSMap.get_eq_none_of_has_eq_false _ k (hhas.trans hd)

/-- An override entry whose kind and depth differ from the base layout. -/
def c2OverridePos : NodePosition :=
  { x := 1, y := 2, hash := "c1", label := "", type := ObjType.blob,
    depth := 5 }

def c2Overrides : JSMap String NodePosition := ⟨[("c1", c2OverridePos)]⟩

/-- Counterexample to C2 as stated: with a stale override for `c1`, the
merged entry's kind is the override's (`blob`, depth 5), not the base's
(`commit`) — kind and depth are NOT always taken from the base. -/
theorem c2_counterexample :
    ((nodePositions (defaultPositions [witCommit]) c2Overrides).get "c1").map
        NodePosition.type = some ObjType.blob ∧
    ((nodePositions (defaultPositions [witCommit]) c2Overrides).get "c1").map
        NodePosition.depth = some 5 ∧
    ((defaultPositions [witCommit]).get "c1").map NodePosition.type =
        some ObjType.commit ∧
    ObjType.blob ≠ ObjType.commit := by decide

/-- Witness for C2 at a concrete layout and override map. -/
theorem c2_merge_amended_witness :
    (nodePositions (defaultPositions [witCommit]) c2Overrides).get "c1" =
      some c2OverridePos :=
  ((c2_merge_amended (defaultPositions [witCommit]) c2Overrides "c1"
    (by unfold JSMap.WF; decide)).2.1) c2OverridePos (by decide) (by decide)

/-- Claim C8 (amended): within each of the commit, tree and blob kinds the
i-th node in collection order sits at `y = i * rowHeight + labelGap` (the
constant `NODE_TO_LABELS_GAP = 30` offsets every row), with no reordering by
any graph property; blob rows begin below the band of all trees, at
`y = treeCount * rowHeight + i * rowHeight + labelGap`.  (Tags are exempt:
a tag anchored to a positioned target takes the target's y instead.) -/
theorem c8_row_assignment_amended :
    ∀ objects : List GitObject, (objects.map (fun o => o.hash)).Nodup →
      (∀ (i : Nat) (c : GitObject), (i, c) ∈ (commitsOf objects).enum →
        ∃ p, (defaultPositions objects).get c.hash = some p ∧
          p.y = (i : Int) * 70 + 30) ∧
      (∀ (i : Nat) (t : GitObject), (i, t) ∈ (treesOf objects).enum →
        ∃ p, (defaultPositions objects).get t.hash = some p ∧
          p.y = (i : Int) * 70 + 30) ∧
      (∀ (i : Nat) (b : GitObject), (i, b) ∈ (blobsOf objects).enum →
        ∃ p, (defaultPositions objects).get b.hash = some p ∧
          p.y = ((treesOf objects).length : Int) * 70 + (i : Int) * 70 + 30) := by
  intro objects hnd
  refine ⟨?_, ?_, ?_⟩
  · intro i c hmem
    exact ⟨commitNP i c, defaultPositions_get_commit hnd hmem, rfl⟩
  · intro i t hmem
    exact ⟨treeNP (depthMapOf objects) i t,
      defaultPositions_get_tree hnd hmem, rfl⟩
  · intro i b hmem
    exact ⟨blobNP (depthMapOf objects) (treesOf objects).length i b,
      defaultPositions_get_blob hnd hmem, rfl⟩

/-- Counterexample to C8 as stated: the 0-th commit of a one-commit
collection sits at y = 30, not at `0 * rowHeight = 0` — every row carries
the constant +30 label-gap offset. -/
theorem c8_counterexample :
    ((defaultPositions [witCommit]).get "c1").map NodePosition.y = some 30 ∧
    (30 : Int) ≠ 0 * 70 := by decide

/-- Witness for C8 at a concrete collection. -/
theorem c8_row_assignment_amended_witness :
    ∃ p, (defaultPositions witObjects).get "t1" = some p ∧
      p.y = ((0 : Nat) : Int) * 70 + 30 := by
  have h := (c8_row_assignment_amended witObjects (by decide)).2.1 0 witTree
    (by decide)
  exact h

/-- Claim C7: dangling references are harmless: every object of the
collection still receives a layout entry (in particular a referencing
commit, tree or tag); a missing reference target has no layout entry (layout
keys are exactly the collection's hashes); every edge whose endpoint
position is missing is omitted from the render pass; and a tag whose target
does not resolve falls back to the default column.  All operations are total
functions — no error is ever raised. -/
theorem c7_dangling_references :
    ∀ objects : List GitObject,
      (∀ o ∈ objects, (defaultPositions objects).has o.hash = true) ∧
      (∀ k : String, (defaultPositions objects).has k = true →
        ∃ o ∈ objects, o.hash = k) ∧
      (∀ (npos : JSMap String NodePosition) (sel : Option String)
        (rel : List String), ∀ e ∈ renderEdges objects npos sel rel,
        (npos.get e.src).isSome = true ∧ (npos.get e.dst).isSome = true) ∧
      ((objects.map (fun o => o.hash)).Nodup →
        ∀ (i : Nat) (t : GitObject), (i, t) ∈ (tagsOf objects).enum →
        (objectMap objects).get t.objectHash = none →
        (defaultPositions objects).get t.hash = some (tagFallbackNP i t)) := by
  intro objects
  refine ⟨?_, ?_, renderEdges_endpoints objects, ?_⟩
  · intro o ho
    exact (defaultPositions_has objects o.hash).mpr ⟨o, ho, rfl⟩
  · intro k hk
    exact (defaultPositions_has objects k).mp hk
  · intro hnd i t hmem hnone
    exact defaultPositions_get_tag_unresolved hnd hmem hnone

/-- Witness for C7 at a concrete collection with a dangling tag target and a
dangling commit parent. -/
theorem c7_dangling_references_witness :
    ((defaultPositions witObjects).has "c1" = true) ∧
    (∃ o ∈ witObjects, o.hash = "g1") ∧
    (defaultPositions witObjects).get "g1" = some (tagFallbackNP 0 witTag) := by
  have h := c7_dangling_references witObjects
  refine ⟨h.1 witCommit (by decide), h.2.1 "g1" (by decide), ?_⟩
  exact h.2.2.2 (by decide) 0 witTag (by decide) (by decide)

/-- Claim C9: both breadth-first loops — the depth assignment of the layout
and the reachability-set computation — terminate on every finite collection,
cyclic or shared tree structure included: each loop reaches its final result
within its potential's number of iterations (each identifier is expanded at
most once), so any larger iteration budget returns the same result. -/
theorem c9_bfs_termination :
    (∀ (omap : JSMap String GitObject) (queue : List (String × Nat))
      (visited : List String) (dmap : JSMap String Nat) (n : Nat),
      depthPhi omap queue visited ≤ n →
      depthBFSF omap n queue visited dmap =
        depthBFSF omap (depthPhi omap queue visited) queue visited dmap) ∧
    (∀ (omap : JSMap String GitObject) (queue setAcc : List String) (n : Nat),
      relPhi omap queue setAcc ≤ n →
      relLoopF omap n queue setAcc =
        relLoopF omap (relPhi omap queue setAcc) queue setAcc) :=
  ⟨fun omap q v d n hn =>
    depthBFSF_stable omap (depthPhi omap q v) n q v d (le_refl _) hn,
   fun omap q s n hn =>
    relLoopF_stable omap (relPhi omap q s) n q s (le_refl _) hn⟩

/-- A collection whose two trees reference each other: a cycle. -/
def cycT1 : GitObject :=
  { hash := "X", type := ObjType.tree,
    entries := [⟨"040000", ObjType.tree, "Y", "d"⟩] }

def cycT2 : GitObject :=
  { hash := "Y", type := ObjType.tree,
    entries := [⟨"040000", ObjType.tree, "X", "d"⟩] }

def cycCommit : GitObject := { hash := "C", type := ObjType.commit, tree := "X" }

def cycObjects : List GitObject := [cycCommit, cycT1, cycT2]

/-- Witness for C9: on the cyclic collection both loops are already stable at
their potential — five extra iterations change nothing. -/
theorem c9_bfs_termination_witness :
    depthBFSF (objectMap cycObjects)
        (depthPhi (objectMap cycObjects) (seedQueue cycObjects) [] + 5)
        (seedQueue cycObjects) [] JSMap.empty =
      depthBFSF (objectMap cycObjects)
        (depthPhi (objectMap cycObjects) (seedQueue cycObjects) [])
        (seedQueue cycObjects) [] JSMap.empty ∧
    relLoopF (objectMap cycObjects)
        (relPhi (objectMap cycObjects) ["X"] ["X"] + 5) ["X"] ["X"] =
      relLoopF (objectMap cycObjects)
        (relPhi (objectMap cycObjects) ["X"] ["X"]) ["X"] ["X"] :=
  ⟨c9_bfs_termination.1 _ _ _ _ _ (Nat.le_add_right _ 5),
   c9_bfs_termination.2 _ _ _ _ (Nat.le_add_right _ 5)⟩

/-- Claim C10: a pointer-move processed while dragging node `id` writes or
changes only the overlay entry for `id` — every other overlay entry and the
camera offset are untouched; a pointer-move processed while panning changes
only the camera offset (by the pointer delta) and leaves every overlay entry
unchanged. -/
theorem c10_move_frame_effect :
    ∀ (objects : List GitObject) (st : IState) (p : Int × Int),
      (∀ id : String, st.draggedNodeHash = some id → id ≠ "" →
        (handleMouseMove objects st p).panOffset = st.panOffset ∧
        (handleMouseMove objects st p).isPanning = st.isPanning ∧
        ∀ h : String, h ≠ id →
          (handleMouseMove objects st p).dragOverrides.get h =
            st.dragOverrides.get h) ∧
      ((st.draggedNodeHash = none ∨ st.draggedNodeHash = some "") →
        st.isPanning = true →
        (handleMouseMove objects st p).dragOverrides = st.dragOverrides ∧
        (handleMouseMove objects st p).panOffset =
          (st.panOffset.1 + (p.1 - st.lastMousePos.1),
           st.panOffset.2 + (p.2 - st.lastMousePos.2))) := by
  intro objects st p
  constructor
  · intro id hd hne
    have htr : truthyHash st.draggedNodeHash = true := by
      rw [hd]
      unfold truthyHash
      simpa using hne
    unfold handleMouseMove
    dsimp only
    rw [if_pos htr, hd]
    dsimp only
    cases hg : (nodePositionsOf objects st).get id with
    | some cp =>
      dsimp only
      exact ⟨rfl, rfl, fun h hne' => JSMap.get_set_ne _ _ _ _ hne'⟩
    | none =>
      dsimp only
      exact ⟨rfl, rfl, fun h _ => rfl⟩
  · intro hd hpan
    have htr : truthyHash st.draggedNodeHash = false := by
      rcases hd with hd | hd <;> rw [hd] <;> rfl
    unfold handleMouseMove
    dsimp only
    rw [if_neg (show ¬truthyHash st.draggedNodeHash = true by
      rw [htr]; exact Bool.false_ne_true), if_pos hpan]
    exact ⟨rfl, rfl⟩

/-- A state in mid-drag of the fixture commit. -/
def c10State : IState :=
  { panOffset := (50, 50), isPanning := false, draggedNodeHash := some "c1",
    lastMousePos := (10, 10), dragOverrides := JSMap.empty, hasMoved := false }

/-- A state in mid-pan. -/
def c10PanState : IState :=
  { panOffset := (50, 50), isPanning := true, draggedNodeHash := none,
    lastMousePos := (10, 10), dragOverrides := JSMap.empty, hasMoved := false }

/-- Witness for C10 at concrete drag and pan states. -/
theorem c10_move_frame_effect_witness :
    ((handleMouseMove witObjects c10State (12, 13)).panOffset =
        c10State.panOffset ∧
      (handleMouseMove witObjects c10State (12, 13)).dragOverrides.get "t1" =
        c10State.dragOverrides.get "t1") ∧
    ((handleMouseMove witObjects c10PanState (12, 13)).dragOverrides =
        c10PanState.dragOverrides ∧
      (handleMouseMove witObjects c10PanState (12, 13)).panOffset = (52, 53)) := by
  have h1 := (c10_move_frame_effect witObjects c10State (12, 13)).1 "c1" rfl
    (by decide)
  have h2 := (c10_move_frame_effect witObjects c10PanState (12, 13)).2
    (Or.inl rfl) rfl
  exact ⟨⟨h1.1, h1.2.2 "t1" (by decide)⟩, ⟨h2.1, h2.2⟩⟩

/-- A positions map is well-keyed when every stored position's `hash` field
equals its lookup key — true of every map the component builds. -/
def WellKeyed (m : JSMap String NodePosition) : Prop :=
  ∀ (k : String) (q : NodePosition), m.get k = some q → q.hash = k

theorem wellKeyed_set {m : JSMap String NodePosition} {k : String}
    {v : NodePosition} (hm : WellKeyed m) (hv : v.hash = k) :
    WellKeyed (m.set k v) := by
  intro k' q hq
  by_cases hk : k' = k
  · subst hk
    rw [JSMap.get_set_self] at hq
    injection hq with h
    subst h
    exact hv
  · rw [JSMap.get_set_ne _ _ _ _ hk] at hq
    exact hm k' q hq

theorem wellKeyed_setAll :
    ∀ (l : List (String × NodePosition)) (m : JSMap String NodePosition),
      (∀ e ∈ l, e.2.hash = e.1) → WellKeyed m → WellKeyed (setAll m l) := by
  intro l
  induction l with
  | nil => intro m _ hm; exact hm
  | cons e rest ih =>
    intro m hl hm
    unfold setAll
    rw [List.foldl_cons]
    exact ih _ (fun e' he' => hl e' (List.mem_cons_of_mem _ he'))
      (wellKeyed_set hm (hl e (List.mem_cons_self _ _)))

theorem wellKeyed_tagFold (omap : JSMap String GitObject) :
    ∀ (l : List (Nat × GitObject)) (m : JSMap String NodePosition),
      WellKeyed m → WellKeyed (tagFold omap l m) := by
  intro l
  induction l with
  | nil => intro m hm; exact hm
  | cons it rest ih =>
    intro m hm
    unfold tagFold
    rw [List.foldl_cons]
    exact ih _ (wellKeyed_set hm rfl)

theorem wellKeyed_defaultPositions (objects : List GitObject) :
    WellKeyed (defaultPositions objects) := by
  unfold defaultPositions
  apply wellKeyed_tagFold
  apply wellKeyed_setAll
  · intro e he
    rcases List.mem_map.mp he with ⟨ib, _, rfl⟩
    rfl
  apply wellKeyed_setAll
  · intro e he
    rcases List.mem_map.mp he with ⟨it, _, rfl⟩
    rfl
  apply wellKeyed_setAll
  · intro e he
    rcases List.mem_map.mp he with ⟨ic, _, rfl⟩
    rfl
  intro k q hq
  cases hq

/-- Claim C4 (amended): for every object collection, well-keyed
effective-position map and selection, an edge drawn by the render pass is
emphasized as follows: commit→tree, tree→entry and tag→target edges iff both
endpoint identifiers are in the reachable set; commit→parent edges iff one
of their endpoints IS the selected identifier (not the reachable-set rule). -/
theorem c4_edge_emphasis_amended :
    ∀ (objects : List GitObject) (npos : JSMap String NodePosition)
      (sel : Option String), WellKeyed npos →
      ∀ e ∈ renderEdges objects npos sel (relatedHashes sel objects),
        (e.kind ≠ EdgeKind.commitParent →
          (e.highlighted = true ↔
            e.src ∈ relatedHashes sel objects ∧
            e.dst ∈ relatedHashes sel objects)) ∧
        (e.kind = EdgeKind.commitParent →
          (e.highlighted = true ↔ sel = some e.src ∨ sel = some e.dst)) := by
  intro objects npos sel hwk e he
  have handh : ∀ (a b : String),
      ((decide (a ∈ relatedHashes sel objects) &&
        decide (b ∈ relatedHashes sel objects)) = true ↔
        a ∈ relatedHashes sel objects ∧ b ∈ relatedHashes sel objects) := by
    intro a b
    rw [Bool.and_eq_true, decide_eq_true_eq, decide_eq_true_eq]
  unfold renderEdges at he
  rcases List.mem_append.mp he with h12 | h3
  · rcases List.mem_append.mp h12 with h1 | h2
    · rcases List.mem_flatMap.mp h1 with ⟨c, _, hin⟩
      rcases List.mem_append.mp hin with hct | hcp
      · rcases mem_edge2 hct with ⟨f, t, hf, ht, rfl⟩
        rw [hwk c.hash f hf, hwk c.tree t ht]
        exact ⟨fun _ => handh _ _, fun hk => absurd hk (by intro hk'; cases hk')⟩
      · rcases List.mem_flatMap.mp hcp with ⟨ph, _, hpe⟩
        rcases mem_edge2 hpe with ⟨f, t, hf, ht, rfl⟩
        rw [hwk c.hash f hf, hwk ph t ht]
        refine ⟨fun hk => absurd rfl hk, fun _ => ?_⟩
        rw [Bool.or_eq_true, decide_eq_true_eq, decide_eq_true_eq]
    · rcases List.mem_flatMap.mp h2 with ⟨t, _, hin⟩
      rcases mem_edge2 hin with ⟨f, tp, hf, ht, rfl⟩
      rw [hwk t.hash f hf, hwk t.objectHash tp ht]
      exact ⟨fun _ => handh _ _, fun hk => absurd hk (by intro hk'; cases hk')⟩
  · rcases List.mem_flatMap.mp h3 with ⟨t, _, hin⟩
    rcases List.mem_flatMap.mp hin with ⟨en, _, hpe⟩
    rcases mem_edge2 hpe with ⟨f, tp, hf, ht, rfl⟩
    rw [hwk t.hash f hf, hwk en.hash tp ht]
    exact ⟨fun _ => handh _ _, fun hk => absurd hk (by intro hk'; cases hk')⟩

/-- Two commits linked by a parent edge and their shared tree. -/
def c4Commit1 : GitObject :=
  { hash := "A", type := ObjType.commit, tree := "t", parent := ["B"] }

def c4Commit2 : GitObject := { hash := "B", type := ObjType.commit, tree := "t" }

def c4Tree : GitObject := { hash := "t", type := ObjType.tree }

def c4Objects : List GitObject := [c4Commit1, c4Commit2, c4Tree]

/-- The emphasized commit→tree edge of the witness scenario. -/
def c4Edge : REdge :=
  { kind := EdgeKind.commitTree, src := "A", dst := "t", highlighted := true }

/-- Counterexample to C4 as stated: with commit `A` (parent `B`) selected,
the drawn commit→parent edge A→B is emphasized although `B` is not in the
reachable set — the render pass does not use the both-endpoints rule for
parent edges. -/
theorem c4_counterexample :
    ∃ e ∈ renderEdges c4Objects (defaultPositions c4Objects) (some "A")
        (relatedHashes (some "A") c4Objects),
      e.kind = EdgeKind.commitParent ∧ e.highlighted = true ∧
      e.dst ∉ relatedHashes (some "A") c4Objects := by decide

/-- Witness for C4 at the concrete three-object collection. -/
theorem c4_edge_emphasis_amended_witness :
    ∃ e ∈ renderEdges c4Objects (defaultPositions c4Objects) (some "A")
        (relatedHashes (some "A") c4Objects),
      e.kind ≠ EdgeKind.commitParent ∧
      (e.highlighted = true ↔
        e.src ∈ relatedHashes (some "A") c4Objects ∧
        e.dst ∈ relatedHashes (some "A") c4Objects) := by
  have hmem : c4Edge ∈
      renderEdges c4Objects (defaultPositions c4Objects) (some "A")
        (relatedHashes (some "A") c4Objects) := by decide
  have h := (c4_edge_emphasis_amended c4Objects (defaultPositions c4Objects)
    (some "A") (wellKeyed_defaultPositions c4Objects)) _ hmem
  exact ⟨c4Edge, hmem, by decide, h.1 (by decide)⟩

theorem handleMouseMove_hasMoved_of_true (objects : List GitObject)
    (st : IState) (p : Int × Int) (h : st.hasMoved = true) :
    (handleMouseMove objects st p).hasMoved = true := by
  unfold handleMouseMove
  dsimp only
  by_cases hb : (1 < (p.1 - st.lastMousePos.1).natAbs ∨
      1 < (p.2 - st.lastMousePos.2).natAbs)
  · rw [if_pos hb]
  · rw [if_neg hb]; exact h

theorem handleClick_none_of_moved (objects : List GitObject) (rect : Int × Int)
    (st : IState) (p : Int × Int) (h : st.hasMoved = true) :
    handleClick objects rect st p = none := by
  unfold handleClick
  rw [if_pos h]

theorem run_suppressed (objects : List GitObject) (rect : Int × Int) :
    ∀ (evs : List PEvent) (st : IState), st.hasMoved = true →
      (∀ e ∈ evs, e.isDown = false) → (runEvents objects rect st evs).2 = [] := by
  intro evs
  induction evs with
  | nil => intro st _ _; rfl
  | cons e es ih =>
    intro st hm hnd
    have hes : ∀ e' ∈ es, e'.isDown = false :=
      fun e' he' => hnd e' (List.mem_cons_of_mem _ he')
    cases e with
    | down p =>
      have hcon := hnd (PEvent.down p) (List.mem_cons_self _ _)
      simp [PEvent.isDown] at hcon
    | move p =>
      show ((none : Option String).toList ++ _) = []
      rw [Option.toList_none, List.nil_append]
      exact ih _ (handleMouseMove_hasMoved_of_true objects st p hm) hes
    | up =>
      show ((none : Option String).toList ++ _) = []
      rw [Option.toList_none, List.nil_append]
      exact ih _ hm hes
    | click p =>
      show ((handleClick objects rect st p).toList ++ _) = []
      rw [handleClick_none_of_moved objects rect st p hm, Option.toList_none,
        List.nil_append]
      exact ih _ hm hes

/-- Claim C5 (amended): in a pointer sequence beginning with pointer-down,
(i) once any pointer-move exceeds the 1-pixel threshold (moved flag set), no
later click of the gesture invokes the selection callback; a move with
|dx|>1 or |dy|>1 sets the flag, a smaller move leaves it unchanged; and (ii)
when the flag is clear, a click invokes the callback with the FIRST node (in
position-map insertion order) within the node radius of the CLICK position —
in particular, a pointer-down that hit a node followed by a click at the
same position emits that node's identifier.  (The emitted node is not in
general the pointer-down node: sub-threshold moves drag it while the hit
test is redone at the click position.) -/
theorem c5_click_vs_drag_amended :
    ∀ (objects : List GitObject) (rect : Int × Int) (st : IState)
      (p : Int × Int),
      (∀ evs : List PEvent, st.hasMoved = true →
        (∀ e ∈ evs, e.isDown = false) →
        (runEvents objects rect st evs).2 = []) ∧
      ((1 < (p.1 - st.lastMousePos.1).natAbs ∨
          1 < (p.2 - st.lastMousePos.2).natAbs) →
        (handleMouseMove objects st p).hasMoved = true) ∧
      (¬(1 < (p.1 - st.lastMousePos.1).natAbs ∨
          1 < (p.2 - st.lastMousePos.2).natAbs) →
        (handleMouseMove objects st p).hasMoved = st.hasMoved) ∧
      (st.hasMoved = false →
        handleClick objects rect st p =
          hitTest (nodePositionsOf objects st)
            (p.1 - rect.1 - st.panOffset.1) (p.2 - rect.2 - st.panOffset.2)) ∧
      (∀ h : String,
        hitTest (nodePositionsOf objects st)
          (p.1 - rect.1 - st.panOffset.1) (p.2 - rect.2 - st.panOffset.2) =
            some h →
        handleClick objects rect (handleMouseDown objects rect st p) p =
          some h) := by
  intro objects rect st p
  refine ⟨fun evs => run_suppressed objects rect evs st, ?_, ?_, ?_, ?_⟩
  · intro hb
    unfold handleMouseMove
    dsimp only
    rw [if_pos hb]
  · intro hb
    unfold handleMouseMove
    dsimp only
    rw [if_neg hb]
  · intro hm
    unfold handleClick
    rw [if_neg (by rw [hm]; exact Bool.false_ne_true)]
  · intro h hh
    unfold handleMouseDown
    dsimp only
    rw [hh]
    dsimp only
    unfold handleClick
    dsimp only
    rw [if_neg (show ¬(false = true) from Bool.false_ne_true)]
    exact hh

/-- Two commits 70px apart: the pointer-down hits `A`; 45 sub-threshold
moves drag `A` along while `B` stays; the click ends within `B`'s radius and
`B` precedes `A` in map order. -/
def c5CommitB : GitObject := { hash := "B", type := ObjType.commit }

def c5CommitA : GitObject := { hash := "A", type := ObjType.commit }

def c5Objects : List GitObject := [c5CommitB, c5CommitA]

def c5Events : List PEvent :=
  PEvent.down (200, 145) ::
    ((List.range 45).map (fun i => PEvent.move (200, (144 - (i : Int))))) ++
    [PEvent.up, PEvent.click (200, 100)]

set_option maxRecDepth 40000 in
/-- Counterexample to C5 as stated: the pointer-down hit-tests onto `A`,
every move stays within the 1-pixel threshold (the moved flag ends false),
yet the click invokes the selection callback with `B`, not `A`. -/
theorem c5_counterexample :
    hitTest (nodePositionsOf c5Objects initState) 150 95 = some "A" ∧
    (runEvents c5Objects (0, 0) initState c5Events).2 = ["B"] ∧
    (runEvents c5Objects (0, 0) initState c5Events).1.hasMoved = false ∧
    "B" ≠ "A" := by decide

/-- Witness for C5 at concrete states: a moved gesture emits nothing, and an
unmoved down-click on a node emits that node. -/
theorem c5_click_vs_drag_amended_witness :
    (runEvents witObjects (0, 0)
      ({ initState with hasMoved := true }) [PEvent.click (5, 5)]).2 = [] ∧
    handleClick witObjects (0, 0)
      (handleMouseDown witObjects (0, 0) initState (200, 80)) (200, 80) =
        some "c1" := by
  have h := c5_click_vs_drag_amended witObjects (0, 0) initState (200, 80)
  have h' := c5_click_vs_drag_amended witObjects (0, 0)
    ({ initState with hasMoved := true }) (5, 5)
  exact ⟨h'.1 [PEvent.click (5, 5)] rfl (by decide),
    h.2.2.2.2 "c1" (by decide)⟩

/-- The directed content edges followed by rendering and reachability:
tag→target, commit→tree, tree→entry. -/
def VisEdge (omap : JSMap String GitObject) (a b : String) : Prop :=
  b ∈ childrenOf omap a

/-- Invariant of the reachability worklist loop. -/
structure RInv (omap : JSMap String GitObject) (s : String)
    (queue setAcc : List String) : Prop where
  qsub : ∀ x ∈ queue, x ∈ setAcc
  sound : ∀ x ∈ setAcc, Relation.ReflTransGen (VisEdge omap) s x
  start : s ∈ setAcc
  closed : ∀ x ∈ setAcc, x ∈ queue ∨ ∀ y ∈ childrenOf omap x, y ∈ setAcc

theorem relLoopF_correct (omap : JSMap String GitObject) (s : String) :
    ∀ (n : Nat) (queue setAcc : List String), RInv omap s queue setAcc →
      relPhi omap queue setAcc ≤ n →
      ∀ x : String, (x ∈ relLoopF omap n queue setAcc ↔
        Relation.ReflTransGen (VisEdge omap) s x) := by
  intro n
  induction n with
  | zero =>
    intro queue setAcc hinv hphi x
    have hqnil : queue = [] := by
      apply List.length_eq_zero.mp
      unfold relPhi at hphi
      omega
    subst hqnil
    rw [relLoopF_nil]
    constructor
    · exact hinv.sound x
    · intro hrtg
      induction hrtg with
      | refl => exact hinv.start
      | tail _ hedge ih =>
        rcases hinv.closed _ ih with hq | hcl
        · cases hq
        · exact hcl _ hedge
  | succ n ih =>
    intro queue setAcc hinv hphi x
    match queue with
    | [] =>
      rw [relLoopF_nil]
      constructor
      · exact hinv.sound x
      · intro hrtg
        induction hrtg with
        | refl => exact hinv.start
        | tail _ hedge ih2 =>
          rcases hinv.closed _ ih2 with hq | hcl
          · cases hq
          · exact hcl _ hedge
    | h :: rest =>
      rw [relLoopF_cons]
      have hlt := relPhi_lt omap h rest setAcc
      rcases addNew_spec (childrenOf omap h) setAcc [] with
        ⟨new, heq, _, hnew, hcov⟩
      have hs : s ∈ setAcc ++ new := List.mem_append_left _ hinv.start
      have hhset : h ∈ setAcc := hinv.qsub h (List.mem_cons_self _ _)
      have hinv' : RInv omap s (rest ++ new) (setAcc ++ new) := by
        refine ⟨?_, ?_, hs, ?_⟩
        · intro y hy
          rcases List.mem_append.mp hy with hy | hy
          · exact List.mem_append_left _
              (hinv.qsub y (List.mem_cons_of_mem _ hy))
          · exact List.mem_append_right _ hy
        · intro y hy
          rcases List.mem_append.mp hy with hy | hy
          · exact hinv.sound y hy
          · exact Relation.ReflTransGen.tail (hinv.sound h hhset)
              (hnew y hy).1
        · intro y hy
          rcases List.mem_append.mp hy with hy | hy
          · rcases hinv.closed y hy with hq | hcl
            · rcases List.mem_cons.mp hq with rfl | hq
              · exact Or.inr (fun z hz => hcov z hz)
              · exact Or.inl (List.mem_append_left _ hq)
            · exact Or.inr (fun z hz => List.mem_append_left _ (hcl z hz))
          · exact Or.inl (List.mem_append_right _ hy)
      rw [heq] at hlt
      simp only [List.nil_append] at hlt
      have := ih (rest ++ new) (setAcc ++ new) hinv' (by omega) x
      rw [heq]
      simp only [List.nil_append]
      exact this

/-- Claim C3: for every object collection and every (truthy) selected
identifier, the reachable set contains the selected identifier itself plus
exactly the identifiers reachable from it by following tag→target,
commit→tree and tree→entry reference edges — commit→parent is never
followed, so a selected commit's parents are not included; with no selection
the set is empty. -/
theorem c3_reachable_set :
    (∀ (objects : List GitObject) (s : String), s ≠ "" →
      ∀ x : String,
        (x ∈ relatedHashes (some s) objects ↔
          Relation.ReflTransGen (VisEdge (objectMap objects)) s x)) ∧
    (∀ objects : List GitObject, relatedHashes none objects = []) := by
  constructor
  · intro objects s hs x
    unfold relatedHashes
    dsimp only
    rw [if_neg hs]
    exact relLoopF_correct (objectMap objects) s _ [s] [s]
      ⟨fun y hy => hy, fun y hy => by
          rcases List.mem_singleton.mp hy with rfl
          exact Relation.ReflTransGen.refl,
        List.mem_singleton.mpr rfl,
        fun y hy => Or.inl hy⟩
      (le_refl _) x
  · intro objects
    rfl

/-- Counterexample to C3 as stated: the empty string is a well-typed
selected identifier, but JavaScript truthiness (`if (!selectedHash)`) treats
it as no selection: the reachable set is empty and does not contain the
selected identifier itself. -/
theorem c3_counterexample :
    relatedHashes (some "") witObjects = [] ∧
    "" ∉ relatedHashes (some "") witObjects := by decide

/-- Witness for C3 on the fixture collection: selecting the tag reaches the
tag itself and everything reachable from its target; parents of a selected
commit are never included. -/
theorem c3_reachable_set_witness :
    ("c1" ∈ relatedHashes (some "c1") witObjects ↔
      Relation.ReflTransGen (VisEdge (objectMap witObjects)) "c1" "c1") ∧
    ("c0" ∈ relatedHashes (some "c1") witObjects ↔
      Relation.ReflTransGen (VisEdge (objectMap witObjects)) "c1" "c0") ∧
    relatedHashes none witObjects = [] :=
  ⟨c3_reachable_set.1 witObjects "c1" (by decide) "c1",
   c3_reachable_set.1 witObjects "c1" (by decide) "c0",
   c3_reachable_set.2 witObjects⟩

/-- The depth-BFS edge relation: `p` resolves to a tree whose entries
contain `h`. -/
def EdgeTo (omap : JSMap String GitObject) (p h : String) : Prop :=
  ∃ o, omap.get p = some o ∧ o.type = ObjType.tree ∧ h ∈ entryHashes o

/-- `ReachN omap seeds n h`: there is a path of length exactly `n` from some
seed to `h` along tree-entry edges. -/
inductive ReachN (omap : JSMap String GitObject) (seeds : List String) :
    Nat → String → Prop
  | seed {h : String} : h ∈ seeds → ReachN omap seeds 0 h
  | step {n : Nat} {p h : String} : ReachN omap seeds n p → EdgeTo omap p h →
      ReachN omap seeds (n + 1) h

/-- `d` is the length of the shortest seed path to `h`. -/
def isDist (omap : JSMap String GitObject) (seeds : List String) (h : String)
    (d : Nat) : Prop :=
  ReachN omap seeds d h ∧ ∀ k, ReachN omap seeds k h → d ≤ k

theorem exists_isDist (omap : JSMap String GitObject) (seeds : List String)
    (h : String) (k : Nat) (hr : ReachN omap seeds k h) :
    ∃ d, isDist omap seeds h d := by
  haveI : DecidablePred (fun n => ReachN omap seeds n h) := Classical.decPred _
  have hex : ∃ n, ReachN omap seeds n h := ⟨k, hr⟩
  exact ⟨Nat.find hex, Nat.find_spec hex, fun j hj => Nat.find_min' hex hj⟩

theorem isDist_unique {omap : JSMap String GitObject} {seeds : List String}
    {h : String} {d1 d2 : Nat} (h1 : isDist omap seeds h d1)
    (h2 : isDist omap seeds h d2) : d1 = d2 :=
  le_antisymm (h1.2 _ h2.1) (h2.2 _ h1.1)

theorem isDist_succ_pred {omap : JSMap String GitObject} {seeds : List String}
    {h : String} {n : Nat} (hd : isDist omap seeds h (n + 1)) :
    ∃ p, isDist omap seeds p n ∧ EdgeTo omap p h := by
  rcases hd with ⟨hr, hmin⟩
  cases hr with
  | step hp he =>
    rename_i p
    rcases exists_isDist omap seeds p n hp with ⟨k, hk⟩
    have hkn : k ≤ n := hk.2 _ hp
    have hnk : n ≤ k := by
      by_contra hlt
      push_neg at hlt
      have hx : ReachN omap seeds (k + 1) h := ReachN.step hk.1 he
      have := hmin _ hx
      omega
    have : k = n := le_antisymm hkn hnk
    subst this
    exact ⟨p, hk, he⟩

/-- The pairs one fresh expansion of `h` at depth `e0` pushes. -/
def pushedAt (omap : JSMap String GitObject) (h : String) (e0 : Nat) :
    List (String × Nat) :=
  match omap.get h with
  | some o =>
    if o.type = ObjType.tree then o.entries.map (fun en => (en.hash, e0 + 1))
    else []
  | none => []

theorem pushedAt_mem {omap : JSMap String GitObject} {h : String} {e0 : Nat}
    {p : String × Nat} (hp : p ∈ pushedAt omap h e0) :
    p.2 = e0 + 1 ∧ EdgeTo omap h p.1 := by
  unfold pushedAt at hp
  cases hget : omap.get h with
  | none => rw [hget] at hp; cases hp
  | some o =>
    rw [hget] at hp
    dsimp only at hp
    by_cases htr : o.type = ObjType.tree
    · rw [if_pos htr] at hp
      rcases List.mem_map.mp hp with ⟨en, hen, rfl⟩
      exact ⟨rfl, o, hget, htr, List.mem_map.mpr ⟨en, hen, rfl⟩⟩
    · rw [if_neg htr] at hp; cases hp

theorem pushedAt_complete {omap : JSMap String GitObject} {h y : String}
    (e0 : Nat) (he : EdgeTo omap h y) : (y, e0 + 1) ∈ pushedAt omap h e0 := by
  rcases he with ⟨o, hget, htr, hy⟩
  unfold pushedAt
  rw [hget]
  dsimp only
  rw [if_pos htr]
  rcases List.mem_map.mp hy with ⟨en, hen, rfl⟩
  exact List.mem_map.mpr ⟨en, hen, rfl⟩

/-- Invariant of the depth BFS loop. -/
structure DInv (omap : JSMap String GitObject) (seeds : List String)
    (queue : List (String × Nat)) (visited : List String)
    (dmap : JSMap String Nat) : Prop where
  q1 : ∀ p ∈ queue, ReachN omap seeds p.2 p.1
  shape : ∃ (d0 : Nat) (qa qb : List (String × Nat)), queue = qa ++ qb ∧
    (∀ p ∈ qa, p.2 = d0) ∧ (∀ p ∈ qb, p.2 = d0 + 1)
  v1 : ∀ h : String, (dmap.has h = true ↔ h ∈ visited)
  v2 : ∀ h ∈ visited, ∃ d, dmap.get h = some d ∧ isDist omap seeds h d
  cl : ∀ h ∈ visited, ∀ d : Nat, dmap.get h = some d →
    ∀ y : String, EdgeTo omap h y → y ∈ visited ∨ (y, d + 1) ∈ queue
  m1 : ∀ (x : String) (k : Nat), ReachN omap seeds k x →
    (∀ p ∈ queue, k < p.2) → queue ≠ [] → x ∈ visited
  m2 : ∀ (x : String) (k : Nat) (y : String) (l : Nat)
    (rest : List (String × Nat)), isDist omap seeds x k →
    queue = (y, l) :: rest → k ≤ l → x ∈ visited ∨ (x, k) ∈ queue
  sd : ∀ s ∈ seeds, s ∈ visited ∨ ∃ l, (s, l) ∈ queue

theorem dinv_final (omap : JSMap String GitObject) (seeds : List String)
    (visited : List String) (dmap : JSMap String Nat)
    (hinv : DInv omap seeds [] visited dmap) :
    ∀ (x : String) (d : Nat), (dmap.get x = some d ↔ isDist omap seeds x d) := by
  intro x d
  constructor
  · intro hget
    have hx : x ∈ visited :=
      (hinv.v1 x).mp (JSMap.has_of_get_eq_some _ _ _ hget)
    rcases hinv.v2 x hx with ⟨d', hd', hdist⟩
    rw [hget] at hd'
    injection hd' with hh
    subst hh
    exact hdist
  · intro hdist
    have hvis : ∀ (k : Nat) (y : String), ReachN omap seeds k y →
        y ∈ visited := by
      intro k y hr
      induction hr with
      | seed hs =>
        rcases hinv.sd _ hs with hv | ⟨l, hl⟩
        · exact hv
        · cases hl
      | step hp he ihp =>
        rcases hinv.v2 _ ihp with ⟨dp, hdp, _⟩
        rcases hinv.cl _ ihp dp hdp _ he with hv | hq
        · exact hv
        · cases hq
    have hx := hvis d x hdist.1
    rcases hinv.v2 x hx with ⟨d', hget, hdist'⟩
    rw [isDist_unique hdist hdist']
    exact hget
theorem dinv_skip (omap : JSMap String GitObject) (seeds : List String)
    (h : String) (e0 : Nat) (rest : List (String × Nat))
    (visited : List String) (dmap : JSMap String Nat)
    (hinv : DInv omap seeds ((h, e0) :: rest) visited dmap)
    (hmem : h ∈ visited) : DInv omap seeds rest visited dmap := by
  rcases hinv.shape with ⟨d0, qa, qb, hqe, hqa, hqb⟩
  have hhead : (h, e0) ∈ (h, e0) :: rest := List.mem_cons_self _ _
  refine ⟨fun p hp => hinv.q1 p (List.mem_cons_of_mem _ hp), ?_, hinv.v1,
    hinv.v2, ?_, ?_, ?_, ?_⟩
  · -- shape of the tail
    cases qa with
    | nil =>
      rw [List.nil_append] at hqe
      refine ⟨d0, [], rest, (List.nil_append rest).symm, ?_, ?_⟩
      · intro p hp
        cases hp
      · intro p hp
        apply hqb
        rw [← hqe]
        exact List.mem_cons_of_mem _ hp
    | cons a qa' =>
      rw [List.cons_append] at hqe
      injection hqe with ha hrest
      exact ⟨d0, qa', qb, hrest,
        fun p hp => hqa p (List.mem_cons_of_mem _ hp), hqb⟩
  · -- closure
    intro x hx d hd y he
    rcases hinv.cl x hx d hd y he with hv | hq
    · exact Or.inl hv
    · rcases List.mem_cons.mp hq with heq | hq'
      · injection heq with h1 _
        exact Or.inl (h1 ▸ hmem)
      · exact Or.inr hq'
  · -- minimality frontier
    intro x k hr hless hne
    cases qa with
    | nil =>
      rw [List.nil_append] at hqe
      have he0 : e0 = d0 + 1 := hqb (h, e0) (hqe ▸ hhead)
      have hall : ∀ p ∈ rest, p.2 = e0 := by
        intro p hp
        rw [he0]
        apply hqb
        rw [← hqe]
        exact List.mem_cons_of_mem _ hp
      obtain ⟨p0, hp0⟩ := List.exists_mem_of_ne_nil rest hne
      have hk0 : k < e0 := by
        have := hless p0 hp0
        rw [hall p0 hp0] at this
        exact this
      apply hinv.m1 x k hr _ (by intro hcon; cases hcon)
      intro p hp
      rcases List.mem_cons.mp hp with rfl | hp'
      · exact hk0
      · rw [hall p hp']
        exact hk0
    | cons a qa' =>
      rw [List.cons_append] at hqe
      injection hqe with ha hrest
      have hd0 : e0 = d0 := by
        have := hqa a (List.mem_cons_self _ _)
        rw [← ha] at this
        exact this
      have hminA : ∀ p ∈ (h, e0) :: rest, e0 ≤ p.2 := by
        intro p hp
        rcases List.mem_cons.mp hp with rfl | hp'
        · exact le_refl _
        · rw [hrest] at hp'
          rcases List.mem_append.mp hp' with hp1 | hp2
          · rw [hqa p (List.mem_cons_of_mem _ hp1), hd0]
          · rw [hqb p hp2, hd0]
            omega
      cases qa' with
      | cons b qa'' =>
        have hb : b ∈ rest := by
          rw [hrest]
          exact List.mem_append_left _ (List.mem_cons_self _ _)
        have hkb := hless b hb
        have hbd : b.2 = e0 := by
          have := hqa b (List.mem_cons_of_mem _ (List.mem_cons_self _ _))
          rw [this, hd0]
        rw [hbd] at hkb
        apply hinv.m1 x k hr _ (by intro hcon; cases hcon)
        intro p hp
        exact lt_of_lt_of_le hkb (hminA p hp)
      | nil =>
        rw [List.nil_append] at hrest
        have hall : ∀ p ∈ rest, p.2 = e0 + 1 := by
          intro p hp
          rw [hqb p (hrest ▸ hp), hd0]
        obtain ⟨p0, hp0⟩ := List.exists_mem_of_ne_nil rest hne
        have hke : k ≤ e0 := by
          have := hless p0 hp0
          rw [hall p0 hp0] at this
          omega
        rcases Nat.lt_or_ge k e0 with hk | hk
        · apply hinv.m1 x k hr _ (by intro hcon; cases hcon)
          intro p hp
          exact lt_of_lt_of_le hk (hminA p hp)
        · have hke0 : k = e0 := le_antisymm hke hk
          rcases exists_isDist omap seeds x k hr with ⟨m, hm⟩
          have hmk : m ≤ k := hm.2 _ hr
          rcases Nat.lt_or_ge m k with hmlt | hmge
          · apply hinv.m1 x m hm.1 _ (by intro hcon; cases hcon)
            intro p hp
            have hme : m < e0 := by omega
            exact lt_of_lt_of_le hme (hminA p hp)
          · have hmke : m = e0 := by omega
            rcases hinv.m2 x m h e0 rest hm rfl (by omega) with hv | hq
            · exact hv
            · rcases List.mem_cons.mp hq with heq | hq'
              · injection heq with h1 _
                exact h1 ▸ hmem
              · have := hall _ hq'
                simp only at this
                omega
  · -- frontier completeness
    intro x k y1 l1 rest1 hdist hqeq hkl
    cases qa with
    | nil =>
      rw [List.nil_append] at hqe
      have he0 : e0 = d0 + 1 := hqb (h, e0) (hqe ▸ hhead)
      have hall : ∀ p ∈ rest, p.2 = e0 := by
        intro p hp
        rw [he0]
        apply hqb
        rw [← hqe]
        exact List.mem_cons_of_mem _ hp
      have hl1 : l1 = e0 := by
        have hy1 : (y1, l1) ∈ rest := by
          rw [hqeq]
          exact List.mem_cons_self _ _
        exact hall _ hy1
      rcases hinv.m2 x k h e0 rest hdist rfl (by omega) with hv | hq
      · exact Or.inl hv
      · rcases List.mem_cons.mp hq with heq | hq'
        · injection heq with h1 _
          exact Or.inl (h1 ▸ hmem)
        · exact Or.inr hq'
    | cons a qa' =>
      rw [List.cons_append] at hqe
      injection hqe with ha hrest
      have hd0 : e0 = d0 := by
        have := hqa a (List.mem_cons_self _ _)
        rw [← ha] at this
        exact this
      cases qa' with
      | cons b qa'' =>
        have hl1 : l1 = e0 := by
          rw [List.cons_append] at hrest
          have hbe : b :: (qa'' ++ qb) = (y1, l1) :: rest1 :=
            hrest.symm.trans hqeq
          injection hbe with hb _
          have hbd := hqa b (List.mem_cons_of_mem _ (List.mem_cons_self _ _))
          rw [hb] at hbd
          have hbd' : l1 = d0 := hbd
          rw [hbd']
          exact hd0.symm
        rcases hinv.m2 x k h e0 rest hdist rfl (by omega) with hv | hq
        · exact Or.inl hv
        · rcases List.mem_cons.mp hq with heq | hq'
          · injection heq with h1 _
            exact Or.inl (h1 ▸ hmem)
          · exact Or.inr hq'
      | nil =>
        rw [List.nil_append] at hrest
        have hall : ∀ p ∈ rest, p.2 = e0 + 1 := by
          intro p hp
          rw [hqb p (hrest ▸ hp), hd0]
        have hl1 : l1 = e0 + 1 := by
          have hy1 : (y1, l1) ∈ rest := by
            rw [hqeq]
            exact List.mem_cons_self _ _
          exact hall _ hy1
        rcases Nat.lt_or_ge k (e0 + 1) with hk | hk
        · rcases hinv.m2 x k h e0 rest hdist rfl (by omega) with hv | hq
          · exact Or.inl hv
          · rcases List.mem_cons.mp hq with heq | hq'
            · injection heq with h1 _
              exact Or.inl (h1 ▸ hmem)
            · exact Or.inr hq'
        · have hke : k = e0 + 1 := by omega
          subst hke
          rcases isDist_succ_pred hdist with ⟨p, hp, hedge⟩
          have hpvis : p ∈ visited := by
            rcases hinv.m2 p e0 h e0 rest hp rfl (le_refl _) with hv | hq
            · exact hv
            · rcases List.mem_cons.mp hq with heq | hq'
              · injection heq with h1 _
                exact h1 ▸ hmem
              · have := hall _ hq'
                simp only at this
                omega
          rcases hinv.v2 p hpvis with ⟨dp, hdp, hdistp⟩
          have hdpe : dp = e0 := isDist_unique hdistp hp
          subst hdpe
          rcases hinv.cl p hpvis dp hdp x hedge with hv | hq
          · exact Or.inl hv
          · rcases List.mem_cons.mp hq with heq | hq'
            · injection heq with _ h2
              omega
            · exact Or.inr hq'
  · -- seeds
    intro s hs
    rcases hinv.sd s hs with hv | ⟨l, hl⟩
    · exact Or.inl hv
    · rcases List.mem_cons.mp hl with heq | hl'
      · injection heq with h1 _
        exact Or.inl (h1 ▸ hmem)
      · exact Or.inr ⟨l, hl'⟩

theorem dinv_visit (omap : JSMap String GitObject) (seeds : List String)
    (h : String) (e0 : Nat) (rest : List (String × Nat))
    (visited : List String) (dmap : JSMap String Nat)
    (hinv : DInv omap seeds ((h, e0) :: rest) visited dmap)
    (hmem : h ∉ visited) :
    isDist omap seeds h e0 ∧
    DInv omap seeds (rest ++ pushedAt omap h e0) (visited ++ [h])
      (dmap.set h e0) := by
  rcases hinv.shape with ⟨d0, qa, qb, hqe, hqa, hqb⟩
  have hhead : (h, e0) ∈ (h, e0) :: rest := List.mem_cons_self _ _
  have hreach : ReachN omap seeds e0 h := hinv.q1 _ hhead
  have hvmem : ∀ x : String, x ∈ visited ++ [h] ↔ (x ∈ visited ∨ x = h) := by
    intro x
    rw [List.mem_append, List.mem_singleton]
  have hhv : h ∈ visited ++ [h] := (hvmem h).mpr (Or.inr rfl)
  -- head-minimality of the old queue
  have hmin : ∀ p ∈ (h, e0) :: rest, e0 ≤ p.2 := by
    intro p hp
    cases qa with
    | nil =>
      rw [List.nil_append] at hqe
      have he0 : e0 = d0 + 1 := hqb (h, e0) (hqe ▸ hhead)
      rw [hqb p (hqe ▸ hp), he0]
    | cons a qa' =>
      rw [List.cons_append] at hqe
      injection hqe with ha hrest
      have hd0 : e0 = d0 := by
        have := hqa a (List.mem_cons_self _ _)
        rw [← ha] at this
        exact this
      rcases List.mem_cons.mp hp with rfl | hp'
      · exact le_refl _
      · rw [hrest] at hp'
        rcases List.mem_append.mp hp' with hp1 | hp2
        · rw [hqa p (List.mem_cons_of_mem _ hp1), hd0]
        · rw [hqb p hp2, hd0]
          omega
  -- the tail either starts at the old depth or is entirely one level deeper
  have hcase : (∃ (b : String × Nat) (r' : List (String × Nat)),
      rest = b :: r' ∧ b.2 = e0) ∨ (∀ p ∈ rest, p.2 = e0 + 1) := by
    cases qa with
    | nil =>
      rw [List.nil_append] at hqe
      have he0 : e0 = d0 + 1 := hqb (h, e0) (hqe ▸ hhead)
      cases rest with
      | nil => exact Or.inr (fun p hp => by cases hp)
      | cons b r' =>
        refine Or.inl ⟨b, r', rfl, ?_⟩
        have hbm : b ∈ (h, e0) :: b :: r' :=
          List.mem_cons_of_mem _ (List.mem_cons_self _ _)
        have hb2 := hqb b (hqe ▸ hbm)
        omega
    | cons a qa' =>
      rw [List.cons_append] at hqe
      injection hqe with ha hrest
      have hd0 : e0 = d0 := by
        have := hqa a (List.mem_cons_self _ _)
        rw [← ha] at this
        exact this
      cases qa' with
      | cons b qa'' =>
        refine Or.inl ⟨b, qa'' ++ qb, by rw [hrest, List.cons_append], ?_⟩
        have := hqa b (List.mem_cons_of_mem _ (List.mem_cons_self _ _))
        rw [this, hd0]
      | nil =>
        rw [List.nil_append] at hrest
        exact Or.inr (fun p hp => by rw [hqb p (hrest ▸ hp), hd0])
  -- the popped node's depth is its true distance
  have hdist : isDist omap seeds h e0 := by
    refine ⟨hreach, ?_⟩
    intro k hk
    by_contra hlt
    push_neg at hlt
    exact hmem (hinv.m1 h k hk
      (fun p hp => lt_of_lt_of_le hlt (hmin p hp)) (by intro hcon; cases hcon))
  refine ⟨hdist, ?_, ?_, ?_, ?_, ?_, ?_, ?_, ?_⟩
  · -- q1
    intro p hp
    rcases List.mem_append.mp hp with hp1 | hp2
    · exact hinv.q1 p (List.mem_cons_of_mem _ hp1)
    · rcases pushedAt_mem hp2 with ⟨hp2d, hp2e⟩
      rw [hp2d]
      exact ReachN.step hreach hp2e
  · -- shape
    cases qa with
    | nil =>
      rw [List.nil_append] at hqe
      have he0 : e0 = d0 + 1 := hqb (h, e0) (hqe ▸ hhead)
      refine ⟨e0, rest, pushedAt omap h e0, rfl, ?_, ?_⟩
      · intro p hp
        rw [hqb p (hqe ▸ List.mem_cons_of_mem _ hp), he0]
      · intro p hp
        exact (pushedAt_mem hp).1
    | cons a qa' =>
      rw [List.cons_append] at hqe
      injection hqe with ha hrest
      have hd0 : e0 = d0 := by
        have := hqa a (List.mem_cons_self _ _)
        rw [← ha] at this
        exact this
      refine ⟨d0, qa', qb ++ pushedAt omap h e0,
        by rw [hrest, List.append_assoc], ?_, ?_⟩
      · exact fun p hp => hqa p (List.mem_cons_of_mem _ hp)
      · intro p hp
        rcases List.mem_append.mp hp with hp1 | hp2
        · exact hqb p hp1
        · rw [(pushedAt_mem hp2).1, hd0]
  · -- v1
    intro x
    rw [JSMap.has_set, hvmem]
    by_cases hx : x = h
    · subst hx
      simp
    · have hb : (x == h) = false := by simpa using hx
      rw [hb, Bool.false_or, hinv.v1]
      constructor
      · exact Or.inl
      · rintro (hv | hv)
        · exact hv
        · exact absurd hv hx
  · -- v2
    intro x hx
    rcases (hvmem x).mp hx with hv | rfl
    · have hne : x ≠ h := fun hc => hmem (hc ▸ hv)
      rcases hinv.v2 x hv with ⟨d, hd, hdd⟩
      exact ⟨d, by rw [JSMap.get_set_ne _ _ _ _ hne]; exact hd, hdd⟩
    · exact ⟨e0, JSMap.get_set_self _ _ _, hdist⟩
  · -- closure
    intro x hx d hd y he
    rcases (hvmem x).mp hx with hv | rfl
    · have hne : x ≠ h := fun hc => hmem (hc ▸ hv)
      rw [JSMap.get_set_ne _ _ _ _ hne] at hd
      rcases hinv.cl x hv d hd y he with hvy | hq
      · exact Or.inl (List.mem_append_left _ hvy)
      · rcases List.mem_cons.mp hq with heq | hq'
        · injection heq with h1 _
          exact Or.inl (h1 ▸ hhv)
        · exact Or.inr (List.mem_append_left _ hq')
    · rw [JSMap.get_set_self] at hd
      injection hd with hde
      subst hde
      exact Or.inr (List.mem_append_right _ (pushedAt_complete e0 he))
  · -- minimality frontier
    intro x k hr hless hqne
    rcases hcase with ⟨b, r', hbrest, hbe⟩ | hall
    · have hb : b ∈ rest ++ pushedAt omap h e0 := by
        rw [hbrest]
        exact List.mem_append_left _ (List.mem_cons_self _ _)
      have hk0 : k < e0 := by
        have := hless b hb
        rw [hbe] at this
        exact this
      apply List.mem_append_left
      apply hinv.m1 x k hr _ (by intro hcon; cases hcon)
      intro p hp
      exact lt_of_lt_of_le hk0 (hmin p hp)
    · have halld : ∀ p ∈ rest ++ pushedAt omap h e0, p.2 = e0 + 1 := by
        intro p hp
        rcases List.mem_append.mp hp with hp1 | hp2
        · exact hall p hp1
        · exact (pushedAt_mem hp2).1
      obtain ⟨p0, hp0⟩ := List.exists_mem_of_ne_nil _ hqne
      have hke : k ≤ e0 := by
        have := hless p0 hp0
        rw [halld p0 hp0] at this
        omega
      rcases Nat.lt_or_ge k e0 with hk | hk
      · apply List.mem_append_left
        apply hinv.m1 x k hr _ (by intro hcon; cases hcon)
        intro p hp
        exact lt_of_lt_of_le hk (hmin p hp)
      · have hke0 : k = e0 := le_antisymm hke hk
        rcases exists_isDist omap seeds x k hr with ⟨m, hm⟩
        have hmk : m ≤ k := hm.2 _ hr
        rcases Nat.lt_or_ge m k with hmlt | hmge
        · apply List.mem_append_left
          apply hinv.m1 x m hm.1 _ (by intro hcon; cases hcon)
          intro p hp
          have hme : m < e0 := by omega
          exact lt_of_lt_of_le hme (hmin p hp)
        · have hmke : m = e0 := by omega
          rcases hinv.m2 x m h e0 rest hm rfl (by omega) with hv | hq
          · exact List.mem_append_left _ hv
          · rcases List.mem_cons.mp hq with heq | hq'
            · injection heq with h1 _
              rw [h1]
              exact hhv
            · have := hall _ hq'
              simp only at this
              omega
  · -- frontier completeness
    intro x k y1 l1 rest1 hdist2 hqeq hkl
    rcases hcase with ⟨b, r', hbrest, hbe⟩ | hall
    · have hl1 : l1 = e0 := by
        rw [hbrest, List.cons_append] at hqeq
        injection hqeq with hb1 _
        have : b.2 = (y1, l1).2 := congrArg Prod.snd hb1
        simp only at this
        omega
      rcases hinv.m2 x k h e0 rest hdist2 rfl (by omega) with hv | hq
      · exact Or.inl (List.mem_append_left _ hv)
      · rcases List.mem_cons.mp hq with heq | hq'
        · injection heq with h1 _
          exact Or.inl (h1 ▸ hhv)
        · exact Or.inr (List.mem_append_left _ hq')
    · have halld : ∀ p ∈ rest ++ pushedAt omap h e0, p.2 = e0 + 1 := by
        intro p hp
        rcases List.mem_append.mp hp with hp1 | hp2
        · exact hall p hp1
        · exact (pushedAt_mem hp2).1
      have hl1 : l1 = e0 + 1 := by
        have hy1 : (y1, l1) ∈ rest ++ pushedAt omap h e0 := by
          rw [hqeq]
          exact List.mem_cons_self _ _
        exact halld _ hy1
      rcases Nat.lt_or_ge k (e0 + 1) with hk | hk
      · rcases hinv.m2 x k h e0 rest hdist2 rfl (by omega) with hv | hq
        · exact Or.inl (List.mem_append_left _ hv)
        · rcases List.mem_cons.mp hq with heq | hq'
          · injection heq with h1 _
            exact Or.inl (h1 ▸ hhv)
          · exact Or.inr (List.mem_append_left _ hq')
      · have hke : k = e0 + 1 := by omega
        subst hke
        rcases isDist_succ_pred hdist2 with ⟨p, hp, hedge⟩
        rcases hinv.m2 p e0 h e0 rest hp rfl (le_refl _) with hpv | hpq
        · rcases hinv.v2 p hpv with ⟨dp, hdp, hdistp⟩
          have hdpe : dp = e0 := isDist_unique hdistp hp
          subst hdpe
          rcases hinv.cl p hpv dp hdp x hedge with hv | hq
          · exact Or.inl (List.mem_append_left _ hv)
          · rcases List.mem_cons.mp hq with heq | hq'
            · injection heq with _ h2
              omega
            · exact Or.inr (List.mem_append_left _ hq')
        · rcases List.mem_cons.mp hpq with heq | hq'
          · injection heq with h1 _
            subst h1
            exact Or.inr (List.mem_append_right _
              (pushedAt_complete e0 hedge))
          · have := hall _ hq'
            simp only at this
            omega
  · -- seeds
    intro s hs
    rcases hinv.sd s hs with hv | ⟨l, hl⟩
    · exact Or.inl (List.mem_append_left _ hv)
    · rcases List.mem_cons.mp hl with heq | hl'
      · injection heq with h1 _
        exact Or.inl (h1 ▸ hhv)
      · exact Or.inr ⟨l, List.mem_append_left _ hl'⟩

theorem dinv_init (omap : JSMap String GitObject) (seeds : List String) :
    DInv omap seeds (seeds.map (fun s => (s, 0))) [] JSMap.empty := by
  refine ⟨?_, ?_, ?_, ?_, ?_, ?_, ?_, ?_⟩
  · intro p hp
    rcases List.mem_map.mp hp with ⟨s, hs, rfl⟩
    exact ReachN.seed hs
  · refine ⟨0, seeds.map (fun s => (s, 0)), [], (List.append_nil _).symm,
      ?_, ?_⟩
    · intro p hp
      rcases List.mem_map.mp hp with ⟨s, _, rfl⟩
      rfl
    · intro p hp
      cases hp
  · intro h
    constructor
    · intro hh
      simp [JSMap.has, JSMap.empty] at hh
    · intro hh
      cases hh
  · intro h hh
    cases hh
  · intro h hh
    cases hh
  · intro x k hr hless hne
    obtain ⟨p0, hp0⟩ := List.exists_mem_of_ne_nil _ hne
    have hk := hless p0 hp0
    rcases List.mem_map.mp hp0 with ⟨s, _, rfl⟩
    simp only at hk
    omega
  · intro x k y l rest hdist hqeq hkl
    have hyl : (y, l) ∈ seeds.map (fun s => (s, 0)) := by
      rw [hqeq]
      exact List.mem_cons_self _ _
    rcases List.mem_map.mp hyl with ⟨s, _, heq⟩
    have hl0 : l = 0 := by
      have := congrArg Prod.snd heq
      simpa using this.symm
    have hk0 : k = 0 := by omega
    subst hk0
    have hr0 := hdist.1
    cases hr0 with
    | seed hx =>
      exact Or.inr (List.mem_map.mpr ⟨x, hx, rfl⟩)
  · intro s hs
    exact Or.inr ⟨0, List.mem_map.mpr ⟨s, hs, rfl⟩⟩

theorem depthBFSF_correct (omap : JSMap String GitObject)
    (seeds : List String) :
    ∀ (n : Nat) (queue : List (String × Nat)) (visited : List String)
      (dmap : JSMap String Nat), DInv omap seeds queue visited dmap →
      depthPhi omap queue visited ≤ n →
      ∀ (x : String) (d : Nat),
        ((depthBFSF omap n queue visited dmap).get x = some d ↔
          isDist omap seeds x d) := by
  intro n
  induction n with
  | zero =>
    intro queue visited dmap hinv hphi x d
    have hqnil : queue = [] := by
      apply List.length_eq_zero.mp
      unfold depthPhi at hphi
      omega
    subst hqnil
    rw [depthBFSF_nil]
    exact dinv_final omap seeds visited dmap hinv x d
  | succ n ih =>
    intro queue visited dmap hinv hphi x d
    match queue with
    | [] =>
      rw [depthBFSF_nil]
      exact dinv_final omap seeds visited dmap hinv x d
    | (h, e0) :: rest =>
      rw [depthBFSF_cons]
      by_cases hmem : h ∈ visited
      · rw [if_pos hmem]
        have hlt := depthPhi_lt_cons omap h e0 rest visited visited (by rfl)
        exact ih rest visited dmap
          (dinv_skip omap seeds h e0 rest visited dmap hinv hmem)
          (by omega) x d
      · rw [if_neg hmem]
        dsimp only
        have hhas : dmap.has h = false := by
          cases hh : dmap.has h with
          | false => rfl
          | true => exact absurd ((hinv.v1 h).mp hh) hmem
        rw [if_neg (show ¬dmap.has h = true by
          rw [hhas]; exact Bool.false_ne_true)]
        rcases dinv_visit omap seeds h e0 rest visited dmap hinv hmem with
          ⟨_, hinv'⟩
        have hvsub : visited.toFinset ⊆ (visited ++ [h]).toFinset := by
          rw [List.toFinset_append]
          exact Finset.subset_union_left
        cases hget : omap.get h with
        | some o =>
          dsimp only
          by_cases htree : o.type = ObjType.tree
          · rw [if_pos htree]
            have hpush : pushedAt omap h e0 =
                o.entries.map (fun en => (en.hash, e0 + 1)) := by
              unfold pushedAt
              rw [hget]
              dsimp only
              rw [if_pos htree]
            rw [hpush] at hinv'
            have hlt := depthPhi_lt_push omap h e0 rest visited hmem o hget
              htree
            exact ih _ _ _ hinv' (by omega) x d
          · rw [if_neg htree]
            have hpush : pushedAt omap h e0 = [] := by
              unfold pushedAt
              rw [hget]
              dsimp only
              rw [if_neg htree]
            rw [hpush, List.append_nil] at hinv'
            have hlt := depthPhi_lt_cons omap h e0 rest visited
              (visited ++ [h]) hvsub
            exact ih _ _ _ hinv' (by omega) x d
        | none =>
          dsimp only
          have hpush : pushedAt omap h e0 = [] := by
            unfold pushedAt
            rw [hget]
          rw [hpush, List.append_nil] at hinv'
          have hlt := depthPhi_lt_cons omap h e0 rest visited
            (visited ++ [h]) hvsub
          exact ih _ _ _ hinv' (by omega) x d

/-- The truthy tree references of the collection's commits, in order: the
BFS seeds. -/
def seedList (objects : List GitObject) : List String :=
  (commitsOf objects).filterMap
    (fun c => if c.tree = "" then none else some c.tree)

theorem seedQueue_eq (objects : List GitObject) :
    seedQueue objects = (seedList objects).map (fun s => (s, 0)) := by
  unfold seedQueue seedList commitsOf
  rw [List.map_filterMap]
  congr 1
  funext c
  by_cases h : c.tree = "" <;> simp [h]

/-- Claim C1: the layout's depth assignment is a breadth-first traversal
seeded from every commit's existing (truthy) tree reference at depth 0 and
following tree entries at depth+1; the depth map assigns to a hash `x` the
value `d` exactly when `d` is the length of the shortest such path (first
visit wins, every node expanded at most once).  In particular every existing
commit `treeRef` gets depth 0, and a node shared between several trees (a
diamond) gets min-over-parents + 1. -/
theorem c1_depth_assignment_shortest_path :
    ∀ objects : List GitObject,
      (∀ (x : String) (d : Nat),
        ((depthMapOf objects).get x = some d ↔
          isDist (objectMap objects) (seedList objects) x d)) ∧
      (∀ c ∈ objects, c.type = ObjType.commit → c.tree ≠ "" →
        (depthMapOf objects).get c.tree = some 0) := by
  intro objects
  have hmain : ∀ (x : String) (d : Nat),
      ((depthMapOf objects).get x = some d ↔
        isDist (objectMap objects) (seedList objects) x d) := by
    intro x d
    unfold depthMapOf
    dsimp only
    rw [seedQueue_eq]
    exact depthBFSF_correct (objectMap objects) (seedList objects) _ _ _ _
      (dinv_init (objectMap objects) (seedList objects)) (le_refl _) x d
  refine ⟨hmain, ?_⟩
  intro c hc hty htr
  apply (hmain c.tree 0).mpr
  constructor
  · apply ReachN.seed
    unfold seedList
    apply List.mem_filterMap.mpr
    refine ⟨c, ?_, by rw [if_neg htr]⟩
    unfold commitsOf
    exact List.mem_filter.mpr ⟨hc, by simpa using hty⟩
  · intro k _
    exact Nat.zero_le k

/-- A diamond with unequal arms: `X` is reachable at depth 1 through `T1`
and at depth 2 through `T2 → T3`. -/
def diaC1 : GitObject := { hash := "C1", type := ObjType.commit, tree := "T1" }

def diaC2 : GitObject := { hash := "C2", type := ObjType.commit, tree := "T2" }

def diaT1 : GitObject :=
  { hash := "T1", type := ObjType.tree,
    entries := [⟨"100644", ObjType.blob, "X", "x"⟩] }

def diaT2 : GitObject :=
  { hash := "T2", type := ObjType.tree,
    entries := [⟨"040000", ObjType.tree, "T3", "d"⟩] }

def diaT3 : GitObject :=
  { hash := "T3", type := ObjType.tree,
    entries := [⟨"100644", ObjType.blob, "X", "x"⟩] }

def diaX : GitObject := { hash := "X", type := ObjType.blob }

def diaObjects : List GitObject := [diaC1, diaC2, diaT1, diaT2, diaT3, diaX]

/-- Witness for C1 on the diamond: the shared node takes the minimum
parent depth + 1, and an existing commit treeRef has depth 0. -/
theorem c1_depth_assignment_shortest_path_witness :
    isDist (objectMap diaObjects) (seedList diaObjects) "X" 1 ∧
    (depthMapOf diaObjects).get "T1" = some 0 ∧
    (depthMapOf diaObjects).get "X" = some 1 :=
  ⟨((c1_depth_assignment_shortest_path diaObjects).1 "X" 1).mp (by decide),
   (c1_depth_assignment_shortest_path diaObjects).2 diaC1 (by decide)
     (by decide) (by decide),
   by decide⟩

end GitVis
